import Mathlib

/-!
# A shallow embedding of the Lua lexer (`lexer.h`, `lexer.c`)

The input of `tokenize` is a NUL-terminated C string.  It is modelled by the list of the
characters that stand before the terminator; `input[i]` reads that list, reads the terminator
at `i = strlen(input)` and has no defined value further on.  The cursor `tokenizer->pos` is
passed explicitly.  Strings built by the readers and the token array are modelled by lists.
The sizes of the heap blocks are followed where the program stores outside a block: the
terminator that `read_long_comment` writes one byte behind its payload block, and the last
token that `tokenize` stores behind an array block of no bytes.  A field that the program
never assigns is kept apart from a field that holds `NULL`.
Cursor values stay far below the range of `int` and `size_t`, so they are natural numbers.
-/

namespace LuaLexer

/-! ## Data model (`lexer.h`) -/

/-- The enumeration `token_type_t` of `lexer.h`, member for member and in the same order. -/
inductive token_type_t where
  | LOCAL | IF | IN | NIL | NOT
  | REPEAT | OR | THEN | TRUE | WHILE
  | UNTIL | RETURN | AND | GOTO | FUNCTION
  | END | FALSE | FOR | ELSE | ELSEIF
  | DO | BREAK
  | INT | FLOAT | STRING_LITERAL
  | UNCLOSED_STRING_LITERAL
  | IDENT
  | ASSIGN | GREATER_EQ | LESS_EQ
  | EQ | NOT_EQ | GREATER | LESS
  | SHIFT_LEFT | SHIFT_RIGHT
  | ADD | SUB | MUL | DIV
  | MOD | POW | LEN
  | SHORT_COMMENT
  | LONG_COMMENT
  | LEFT_PAREN | RIGHT_PAREN | LEFT_BRACKET
  | RIGHT_BRACKET | LEFT_CURLY | RIGHT_CURLY
  | CONCAT | DOTS | DOUBLE_COLON | COLON
  | COMMA | SEMICOLON | ATTR | WHITESPACE
  | UNIDENTIFIED | END_OF_FILE
  deriving DecidableEq, Repr

open token_type_t

/-- The states of the field `char* value` of a token: never assigned, `NULL`, the address of
a NUL-terminated string, or the address of a block that holds `held` and no terminator (the
terminator was written behind the block, so what a reader of the string finds behind `held`
is not determined by the program). -/
inductive value_t where
  | unassigned
  | null
  | text (string : List Char)
  | unterminated (held : List Char)
  deriving DecidableEq, Repr

/-- The struct `token_t`: a kind and a text payload. -/
structure token_t where
  type : token_type_t
  value : value_t
  deriving DecidableEq, Repr

/-- What running a piece of the program gives: a result, an access outside its memory block
(no defined behaviour from there on; `index` is the index of that access), or exhausted fuel
(the run has not finished within the bound). -/
inductive Result (α : Type) where
  | ok (a : α)
  | undefined (index : Nat)
  | timeout
  deriving DecidableEq, Repr

/-- Sequencing of two program pieces. -/
def Result.bind {α β : Type} (x : Result α) (f : α → Result β) : Result β :=
  match x with
  | .ok a => f a
  | .undefined i => .undefined i
  | .timeout => .timeout

instance : Monad Result where
  pure := Result.ok
  bind := Result.bind

/-! ## Characters and the input buffer -/

/-- The terminator of a C string. -/
def NUL : Char := Char.ofNat 0

/-- The C expression `input[i]`: a character of the text, the terminator right after the text,
nothing defined beyond the terminator. -/
def char_at (input : List Char) (i : Nat) : Result Char :=
  match input[i]? with
  | some c => .ok c
  | none => if i = input.length then .ok NUL else .undefined i

/-- The C library function `isdigit` (the program never leaves the "C" locale). -/
def isdigit (c : Char) : Bool := decide ('0' ≤ c ∧ c ≤ '9')

/-- The C library function `isalpha` in the "C" locale: the 52 ASCII letters. -/
def isalpha (c : Char) : Bool :=
  decide (('a' ≤ c ∧ c ≤ 'z') ∨ ('A' ≤ c ∧ c ≤ 'Z'))

/-- The C library function `isxdigit`. -/
def isxdigit (c : Char) : Bool :=
  decide (('0' ≤ c ∧ c ≤ '9') ∨ ('a' ≤ c ∧ c ≤ 'f') ∨ ('A' ≤ c ∧ c ≤ 'F'))

/-- The C library function `isspace` in the "C" locale: space, `\t`, `\n`, `\v`, `\f`, `\r`. -/
def isspace (c : Char) : Bool :=
  decide (c = ' ' ∨ c = '\t' ∨ c = '\n' ∨ c = Char.ofNat 11 ∨ c = Char.ofNat 12 ∨ c = '\r')

/-! ## Helpers of `lexer.c` -/

/-- The function `starts_with(str, prefix, pos)`: compares `str[pos + i]` with `prefix[i]` for
`i = 0, 1, ...` and answers 0 at the first difference. -/
def starts_with (str : List Char) : List Char → Nat → Result Bool
  | [], _ => .ok true
  | p :: ps, pos =>
    match char_at str pos with
    | .ok c => if c ≠ p then .ok false else starts_with str ps (pos + 1)
    | .undefined i => .undefined i
    | .timeout => .timeout

/-- The function `has_at_least(str, n)`: `tokenizer->pos + n < strlen(str)`. -/
def has_at_least (input : List Char) (pos n : Nat) : Bool :=
  decide (pos + n < input.length)

/-- The function `is_eof()`. -/
def is_eof (input : List Char) (pos : Nat) : Bool :=
  !has_at_least input pos 0

/-- The function `is_valid_ident_start()`; it reads `input[pos]`. -/
def is_valid_ident_start (input : List Char) (pos : Nat) : Result Bool :=
  match char_at input pos with
  | .ok c => .ok (isalpha c || decide (c = '_'))
  | .undefined i => .undefined i
  | .timeout => .timeout

/-- The function `is_valid_ident()`; it reads `input[pos]`. -/
def is_valid_ident (input : List Char) (pos : Nat) : Result Bool :=
  match char_at input pos with
  | .ok c => .ok (isalpha c || isdigit c || decide (c = '_'))
  | .undefined i => .undefined i
  | .timeout => .timeout

/-- The function `token_to_str`: the `switch` has no `default`, and a kind without a `case`
leaves the function without a `return` value, which is `none` here. -/
def token_to_str : token_type_t → Option String
  | LOCAL => some "local"
  | IF => some "if"
  | IN => some "in"
  | NIL => some "nil"
  | NOT => some "not"
  | REPEAT => some "repeat"
  | OR => some "or"
  | THEN => some "then"
  | TRUE => some "true"
  | WHILE => some "while"
  | UNTIL => some "until"
  | RETURN => some "return"
  | AND => some "and"
  | GOTO => some "goto"
  | FUNCTION => some "function"
  | END => some "end"
  | FALSE => some "false"
  | FOR => some "for"
  | ELSE => some "else"
  | ELSEIF => some "elseif"
  | DO => some "do"
  | BREAK => some "break"
  | INT => some "int"
  | FLOAT => some "float"
  | STRING_LITERAL => some "string_literal"
  | UNCLOSED_STRING_LITERAL => some "unclosed_string_literal"
  | IDENT => some "ident"
  | ASSIGN => some "assign"
  | GREATER_EQ => some "greater_eq"
  | LESS_EQ => some "less_eq"
  | EQ => some "eq"
  | NOT_EQ => some "not_eq"
  | GREATER => some "greater"
  | LESS => some "less"
  | ADD => some "add"
  | SUB => some "sub"
  | MUL => some "mul"
  | DIV => some "div"
  | MOD => some "mod"
  | POW => some "pow"
  | LEN => some "len"
  | SHORT_COMMENT => some "short_comment"
  | LONG_COMMENT => some "long_comment"
  | LEFT_PAREN => some "left_paren"
  | RIGHT_PAREN => some "right_paren"
  | LEFT_BRACKET => some "left_bracket"
  | RIGHT_BRACKET => some "right_bracket"
  | LEFT_CURLY => some "left_curly"
  | RIGHT_CURLY => some "right_curly"
  | CONCAT => some "concat"
  | DOTS => some "dots"
  | DOUBLE_COLON => some "double_colon"
  | COLON => some "colon"
  | COMMA => some "comma"
  | SEMICOLON => some "semicolon"
  | ATTR => some "attr"
  | WHITESPACE => some "whitespace"
  | UNIDENTIFIED => some "unidentified"
  | END_OF_FILE => some "end_of_file"
  | SHIFT_LEFT => none
  | SHIFT_RIGHT => none

/-- The function `keyword_to_token_type`; `compare` is equality of the two strings. -/
def keyword_to_token_type (keyword : List Char) : token_type_t :=
  if keyword = "and".toList then AND
  else if keyword = "goto".toList then GOTO
  else if keyword = "function".toList then FUNCTION
  else if keyword = "end".toList then END
  else if keyword = "false".toList then FALSE
  else if keyword = "for".toList then FOR
  else if keyword = "else".toList then ELSE
  else if keyword = "elseif".toList then ELSEIF
  else if keyword = "do".toList then DO
  else if keyword = "break".toList then BREAK
  else if keyword = "local".toList then LOCAL
  else if keyword = "if".toList then IF
  else if keyword = "in".toList then IN
  else if keyword = "nil".toList then NIL
  else if keyword = "not".toList then NOT
  else if keyword = "repeat".toList then REPEAT
  else if keyword = "or".toList then OR
  else if keyword = "then".toList then THEN
  else if keyword = "true".toList then TRUE
  else if keyword = "while".toList then WHILE
  else if keyword = "until".toList then UNTIL
  else if keyword = "return".toList then RETURN
  else IDENT

/-! ## The literal readers -/

/-- The `for (;;)` loop of `read_digit`, one iteration per unit of fuel.  The state is the
cursor, the text copied so far and the flag `is_float`. -/
def read_digit_loop (input : List Char) (is_hex : Bool) :
    Nat → Nat → List Char → Bool → Result (Nat × List Char × Bool)
  | 0, _, _, _ => .timeout
  | fuel + 1, pos, digit, is_float =>
    match char_at input pos with
    | .ok c =>
      if c = '.' then
        read_digit_loop input is_hex fuel (pos + 1) (digit ++ [c]) true
      else if c = '-' ∨ isdigit c = true then
        read_digit_loop input is_hex fuel (pos + 1) (digit ++ [c]) is_float
      else if c = 'e' ∨ c = 'E' then
        read_digit_loop input is_hex fuel (pos + 1)
          (if c = '-' ∨ c = '+' then (digit ++ [c]) ++ [c] else digit ++ [c]) is_float
      else if is_hex = true ∧ isxdigit c = true then
        read_digit_loop input is_hex fuel (pos + 1) (digit ++ [c]) is_float
      else
        .ok (pos, digit, is_float)
    | .undefined i => .undefined i
    | .timeout => .timeout

/-- The two statements of `read_digit` that copy the prefix `0x` or `0X`. -/
def read_hex_head (input : List Char) (pos : Nat) : Result (Nat × List Char) := do
  let c0 ← char_at input pos
  let c1 ← char_at input (pos + 1)
  pure (pos + 2, [c0, c1])

/-- The function `read_digit`.  Every iteration of its loop moves the cursor one character
forward and the loop stops at the terminator at the latest, so `input.length + 1` iterations
are enough whenever the cursor starts inside the buffer. -/
def read_digit (input : List Char) (pos : Nat) : Result (token_t × Nat) := do
  let lower ← starts_with input "0x".toList pos
  let is_hex ← (if lower then Result.ok true else starts_with input "0X".toList pos)
  let start ← (if is_hex then read_hex_head input pos else Result.ok (pos, []))
  let r ← read_digit_loop input is_hex (input.length + 1) start.1 start.2 false
  pure (⟨if r.2.2 then FLOAT else INT, .text r.2.1⟩, r.1)

/-- The `while` loop of `read_short_string`. -/
def read_short_string_loop (input : List Char) (start : Char) :
    Nat → Nat → List Char → Bool → Result (Nat × List Char × Bool)
  | 0, _, _, _ => .timeout
  | fuel + 1, pos, string, is_closed =>
    if !is_closed && has_at_least input pos 0 then
      match char_at input pos with
      | .ok c =>
        let string1 := if c = '\\' then string ++ [c] else string
        let pos1 := if c = '\\' then pos + 1 else pos
        if c ≠ start then
          read_short_string_loop input start fuel (pos1 + 1) (string1 ++ [c]) is_closed
        else
          read_short_string_loop input start fuel (pos1 + 1) string1 true
      | .undefined i => .undefined i
      | .timeout => .timeout
    else
      .ok (pos, string, is_closed)

/-- The function `read_short_string`. -/
def read_short_string (input : List Char) (pos : Nat) : Result (token_t × Nat) := do
  let start ← char_at input pos
  let r ← read_short_string_loop input start (input.length + 1) (pos + 1) [] false
  pure (⟨if r.2.2 then STRING_LITERAL else UNCLOSED_STRING_LITERAL, .text r.2.1⟩, r.1)

/-- The `while` loop of `read_long_string`. -/
def read_long_string_loop (input : List Char) :
    Nat → Nat → List Char → Bool → Result (Nat × List Char × Bool)
  | 0, _, _, _ => .timeout
  | fuel + 1, pos, string, is_closed =>
    if !is_closed && has_at_least input pos 0 then
      match char_at input pos, char_at input (pos + 1) with
      | .ok c1, .ok c2 =>
        if c1 ≠ ']' ∨ c2 ≠ ']' then
          read_long_string_loop input fuel (pos + 1) (string ++ [c1]) is_closed
        else
          read_long_string_loop input fuel (pos + 2) string true
      | .ok _, .undefined i => .undefined i
      | .ok _, .timeout => .timeout
      | .undefined i, _ => .undefined i
      | .timeout, _ => .timeout
    else
      .ok (pos, string, is_closed)

/-- The function `read_long_string`. -/
def read_long_string (input : List Char) (pos : Nat) : Result (token_t × Nat) := do
  let r ← read_long_string_loop input (input.length + 1) (pos + 2) [] false
  pure (⟨if r.2.2 then STRING_LITERAL else UNCLOSED_STRING_LITERAL, .text r.2.1⟩, r.1)

/-- The `while` loop of `read_short_comment`; its test reads `input[pos]` first. -/
def read_short_comment_loop (input : List Char) :
    Nat → Nat → List Char → Result (Nat × List Char)
  | 0, _, _ => .timeout
  | fuel + 1, pos, comment =>
    match char_at input pos with
    | .ok c =>
      if c ≠ '\n' ∧ has_at_least input pos 0 = true then
        read_short_comment_loop input fuel (pos + 1) (comment ++ [c])
      else
        .ok (pos, comment)
    | .undefined i => .undefined i
    | .timeout => .timeout

/-- The function `read_short_comment`. -/
def read_short_comment (input : List Char) (pos : Nat) : Result (token_t × Nat) := do
  let r ← read_short_comment_loop input (input.length + 1) pos []
  pure (⟨SHORT_COMMENT, .text r.2⟩, r.1)

/-- The `while` loop of `read_long_comment`; its test calls `starts_with` first. -/
def read_long_comment_loop (input : List Char) :
    Nat → Nat → List Char → Result (Nat × List Char)
  | 0, _, _ => .timeout
  | fuel + 1, pos, comment =>
    match starts_with input "]]".toList pos with
    | .ok closer =>
      if !closer && has_at_least input pos 0 then
        match char_at input pos with
        | .ok c => read_long_comment_loop input fuel (pos + 1) (comment ++ [c])
        | .undefined i => .undefined i
        | .timeout => .timeout
      else
        .ok (pos, comment)
    | .undefined i => .undefined i
    | .timeout => .timeout

/-- The function `read_long_comment`: after the loop it writes `]]` behind the copied text,
whatever stopped the loop, and leaves the cursor where the loop stopped.  With `size` the
length of the copied text plus 2, the block is resized to `size` bytes, the two brackets are
stored at `size - 2` and `size - 1`, and the terminator is stored at index `size`, one byte
behind the block: the block holds the copied text and `]]`, and no terminator. -/
def read_long_comment (input : List Char) (pos : Nat) : Result (token_t × Nat) := do
  let r ← read_long_comment_loop input (input.length + 1) pos []
  pure (⟨LONG_COMMENT, .unterminated (r.2 ++ [']', ']'])⟩, r.1)

/-! ## Operators, identifiers and the dispatch -/

/-- The function `get_matching_token_type`: the cursor moves by `strlen(str)` first, then the
text at the old cursor is compared with `str`. -/
def get_matching_token_type (input : List Char) (pos : Nat) (str : List Char)
    (true_token false_token : token_type_t) : Result (token_type_t × Nat) := do
  let found ← starts_with input str (pos + str.length - str.length)
  pure (if found then true_token else false_token, pos + str.length)

/-- The `while (is_valid_ident())` loop of `read_other_tokens`. -/
def read_word_loop (input : List Char) : Nat → Nat → List Char → Result (Nat × List Char)
  | 0, _, _ => .timeout
  | fuel + 1, pos, word =>
    match is_valid_ident input pos, char_at input pos with
    | .ok true, .ok c => read_word_loop input fuel (pos + 1) (word ++ [c])
    | .ok false, _ => .ok (pos, word)
    | .ok true, .undefined i => .undefined i
    | .ok true, .timeout => .timeout
    | .undefined i, _ => .undefined i
    | .timeout, _ => .timeout

/-- The part of `read_other_tokens` behind its `switch`: with the kind chosen by the `switch`
and the cursor it left, an identifier that starts at the cursor is read and replaces the
kind. -/
def read_other_tokens_tail (input : List Char) (type : token_type_t) (pos : Nat) :
    Result (token_t × Nat) := do
  let is_start ← is_valid_ident_start input pos
  if is_start then do
    let r ← read_word_loop input (input.length + 1) pos []
    pure (⟨keyword_to_token_type r.2,
      if keyword_to_token_type r.2 = IDENT then .text r.2 else .null⟩, r.1)
  else
    pure (⟨type, .null⟩, pos)

/-- The function `read_other_tokens`. -/
def read_other_tokens (input : List Char) (pos : Nat) : Result (token_t × Nat) := do
  let c ← char_at input pos
  if c = '~' then do
    let r ← get_matching_token_type input pos "~=".toList NOT_EQ UNIDENTIFIED
    read_other_tokens_tail input r.1 r.2
  else if c = '>' then do
    let r ← get_matching_token_type input pos ">=".toList GREATER_EQ GREATER
    read_other_tokens_tail input r.1 r.2
  else if c = '<' then do
    let r ← get_matching_token_type input pos "<=".toList LESS_EQ LESS
    read_other_tokens_tail input r.1 r.2
  else if c = '=' then do
    let r ← get_matching_token_type input pos "==".toList EQ ASSIGN
    read_other_tokens_tail input r.1 r.2
  else if c = ':' then do
    let r ← get_matching_token_type input pos "::".toList DOUBLE_COLON COLON
    read_other_tokens_tail input r.1 r.2
  else if c = '-' then do
    let long ← starts_with input "--[[".toList pos
    if long then read_long_comment input pos
    else do
      let short ← starts_with input "--".toList pos
      if short then read_short_comment input pos
      else do
        let next ← char_at input (pos + 1)
        if isdigit next then read_digit input pos
        else read_other_tokens_tail input SUB (pos + 1)
  else if c = '.' then do
    let next ← char_at input (pos + 1)
    if isdigit next then read_digit input pos
    else read_other_tokens_tail input ATTR (pos + 1)
  else if c = '[' then do
    let long ← starts_with input "[[".toList pos
    if long then read_long_string input pos
    else read_other_tokens_tail input LEFT_BRACKET (pos + 1)
  else
    read_other_tokens_tail input UNIDENTIFIED pos

/-- The kind chosen by the `switch` of `next_token` for the characters that have a `case` with
a `break`; `UNIDENTIFIED` is its `default`. -/
def next_token_switch (c : Char) : token_type_t :=
  if c = '(' then LEFT_PAREN
  else if c = ')' then RIGHT_PAREN
  else if c = ']' then RIGHT_BRACKET
  else if c = '{' then LEFT_CURLY
  else if c = '}' then RIGHT_CURLY
  else if c = ';' then SEMICOLON
  else if c = ',' then COMMA
  else if c = '+' then ADD
  else if c = '*' then MUL
  else if c = '/' then DIV
  else if c = '%' then MOD
  else if c = '^' then POW
  else if c = '#' then LEN
  else UNIDENTIFIED

/-- The function `next_token`: one dispatch step, from the cursor `pos` to a token and the
cursor behind it. -/
def next_token (input : List Char) (pos : Nat) : Result (token_t × Nat) := do
  let c ← char_at input pos
  if c = '\'' ∨ c = '"' then read_short_string input pos
  else
    let type := next_token_switch c
    if isdigit c then read_digit input pos
    else
      let type := if isspace c then WHITESPACE else type
      if type = UNIDENTIFIED then read_other_tokens input pos
      else pure (⟨type, .null⟩, pos + 1)

/-- The `while (!is_eof())` loop of `tokenize`, one dispatch step per unit of fuel; it gives
the tokens kept so far and the cursor at which the loop stopped. -/
def tokenize_loop (input : List Char) : Nat → Nat → List token_t → Result (List token_t × Nat)
  | 0, _, _ => .timeout
  | fuel + 1, pos, tokens =>
    if is_eof input pos then .ok (tokens, pos)
    else
      match next_token input pos with
      | .ok r =>
        tokenize_loop input fuel r.2
          (if r.1.type ≠ WHITESPACE then tokens ++ [r.1] else tokens)
      | .undefined i => .undefined i
      | .timeout => .timeout

/-- The last token of the array as `tokenize` builds it: the struct is allocated and its kind
is set to `END_OF_FILE`; its field `value` is never assigned. -/
def end_token : token_t := ⟨END_OF_FILE, .unassigned⟩

/-- The size in bytes of a `token_t` (an `enum` and a pointer) on an LP64 platform. -/
def sizeof_token_t : Nat := 16

/-- The size in bytes of a `token_t*`, the element type of the array `tokens`, on an LP64
platform.  (On an ILP32 platform the two sizes are 8 and 4, with the same outcome below.) -/
def sizeof_token_ptr : Nat := 8

/-- The function `tokenize`, with a bound `fuel` on the number of tests of its loop.  Behind
the loop, with `size` the number of tokens kept, the array is resized to
`size * sizeof(token_t)` bytes and the last token is stored at index `size`; the store lies
inside the block when `(size + 1) * sizeof(token_t*)` bytes fit in it, and outside the
(empty) block when no token was kept. -/
def tokenize (fuel : Nat) (input : List Char) : Result (List token_t) :=
  match tokenize_loop input fuel 0 [] with
  | .ok r =>
    if (r.1.length + 1) * sizeof_token_ptr ≤ r.1.length * sizeof_token_t then
      .ok (r.1 ++ [end_token])
    else .undefined r.1.length
  | .undefined i => .undefined i
  | .timeout => .timeout

/-- The spans `(cursor before, cursor after)` of the successive dispatch steps of the loop of
`tokenize`, started at `pos`. -/
def dispatch_spans (input : List Char) : Nat → Nat → Result (List (Nat × Nat))
  | 0, _ => .timeout
  | fuel + 1, pos =>
    if is_eof input pos then .ok []
    else
      match next_token input pos with
      | .ok r =>
        match dispatch_spans input fuel r.2 with
        | .ok spans => .ok ((pos, r.2) :: spans)
        | .undefined i => .undefined i
        | .timeout => .timeout
      | .undefined i => .undefined i
      | .timeout => .timeout

/-! ## Vocabulary of the specification -/

/-- A token without payload. -/
def plain (type : token_type_t) : token_t := ⟨type, .null⟩

/-- A token with a payload. -/
def with_text (type : token_type_t) (text : List Char) : token_t := ⟨type, .text text⟩

/-- The characters for which the specification names a lexical rule: the two quotes, the
thirteen one-character tokens, the eight characters resolved by lookahead, the decimal digits,
white space, and the characters an identifier starts with. -/
def has_rule (c : Char) : Bool :=
  decide (c ∈ ['\'', '"']) ||
  decide (c ∈ ['(', ')', ']', '{', '}', ';', ',', '+', '*', '/', '%', '^', '#']) ||
  decide (c ∈ ['~', '>', '<', '=', ':', '-', '.', '[']) ||
  isdigit c || isspace c || isalpha c || decide (c = '_')

/-- The characters that end a decimal literal and cannot be taken for the `x` of a `0x`
prefix: anything but `.`, `-`, `e`, `E`, `x`, `X` and the decimal digits. -/
def number_stop (t : Char) : Bool :=
  decide (t ≠ 'x') && decide (t ≠ 'X') && decide (t ≠ '.') && decide (t ≠ '-') &&
  !isdigit t && decide (t ≠ 'e') && decide (t ≠ 'E')

/-- The characters that the loop of `read_digit` copies outside hex mode: `.`, `-`, the
decimal digits, `e` and `E`. -/
def number_char (c : Char) : Bool :=
  decide (c = '.') || decide (c = '-') || isdigit c || decide (c = 'e') || decide (c = 'E')

/-- The five characters that `read_other_tokens` resolves with `get_matching_token_type`. -/
def two_char_operator (c : Char) : Bool := decide (c ∈ ['~', '>', '<', '=', ':'])

/-- The classifier `is_ident_start` of the specification: an ASCII letter or `_`. -/
def ident_start (c : Char) : Bool := isalpha c || decide (c = '_')

/-- The classifier `is_ident_continue` of the specification: `is_ident_start` or a digit. -/
def ident_continue (c : Char) : Bool := ident_start c || isdigit c

/-- An identifier-shaped text: an identifier-start character followed by identifier-continue
characters. -/
def ident_shaped : List Char → Bool
  | [] => false
  | c :: cs => ident_start c && cs.all ident_continue

/-- The 22 reserved words of the specification. -/
def reserved_words : List (List Char) :=
  ["local".toList, "if".toList, "in".toList, "nil".toList, "not".toList, "repeat".toList,
    "or".toList, "then".toList, "true".toList, "while".toList, "until".toList,
    "return".toList, "and".toList, "goto".toList, "function".toList, "end".toList,
    "false".toList, "for".toList, "else".toList, "elseif".toList, "do".toList,
    "break".toList]

/-- A property of the result of a run, for the runs that give one. -/
def Result.sat {α : Type} (P : α → Prop) (x : Result α) : Prop :=
  ∀ a, x = Result.ok a → P a

/-- The run has finished: its outcome is a result or an access outside a block, not
exhausted fuel. -/
def Result.halts {α : Type} (x : Result α) : Prop := x ≠ Result.timeout

/-- The dispatch step ends with the cursor at `q`: it returns with the cursor `q`, or it stands
at the cursor `q` when it reads `input[q]` outside the buffer. -/
def ends_at (x : Result (token_t × Nat)) (q : Nat) : Prop :=
  (∃ tok, x = .ok (tok, q)) ∨ x = .undefined q

/-- The result of a dispatch step is not an `END_OF_FILE` token. -/
def not_eof (r : token_t × Nat) : Prop := r.1.type ≠ END_OF_FILE

/-! ## Basic facts -/

@[simp] theorem sizeof_token_ptr_val : sizeof_token_ptr = 8 := rfl

@[simp] theorem sizeof_token_t_val : sizeof_token_t = 16 := rfl

@[simp] theorem bind_ok {α β : Type} (a : α) (f : α → Result β) :
    (Result.ok a >>= f) = f a := rfl

@[simp] theorem bind_undefined {α β : Type} (i : Nat) (f : α → Result β) :
    ((Result.undefined i : Result α) >>= f) = Result.undefined i := rfl

@[simp] theorem bind_timeout {α β : Type} (f : α → Result β) :
    ((Result.timeout : Result α) >>= f) = Result.timeout := rfl

@[simp] theorem pure_eq_ok {α : Type} (a : α) : (pure a : Result α) = Result.ok a := rfl

theorem bind_eq_ok {α β : Type} (x : Result α) (f : α → Result β) (b : β) :
    (x >>= f) = Result.ok b ↔ ∃ a, x = Result.ok a ∧ f a = Result.ok b := by
  cases x <;> simp

/-- Reading the first character behind a prefix of the text. -/
theorem char_at_append_cons (pre : List Char) (c : Char) (post : List Char) :
    char_at (pre ++ c :: post) pre.length = .ok c := by
  have h : (pre ++ c :: post)[pre.length]? = some c := by
    rw [List.getElem?_append_right (le_refl _)]
    simp
  simp [char_at, h]

/-- Reading right behind the text gives the terminator. -/
theorem char_at_length (pre : List Char) : char_at pre pre.length = .ok NUL := by
  simp [char_at]

theorem char_at_lt (input : List Char) (i : Nat) (h : i < input.length) :
    char_at input i = .ok (input.get ⟨i, h⟩) := by
  simp [char_at, List.getElem?_eq_getElem h]

theorem sat_ok {α : Type} {P : α → Prop} {a : α} (h : P a) : (Result.ok a).sat P := by
  intro b hb
  cases hb
  exact h

theorem sat_bind {α β : Type} {P : β → Prop} {x : Result α} {f : α → Result β}
    (h : ∀ a, x = Result.ok a → (f a).sat P) : (x >>= f).sat P := by
  intro b hb
  obtain ⟨a, ha, hfa⟩ := (bind_eq_ok x f b).1 hb
  exact h a ha b hfa

theorem sat_ite {α : Type} {P : α → Prop} {c : Prop} [Decidable c] {x y : Result α}
    (hx : x.sat P) (hy : y.sat P) : (if c then x else y).sat P := by
  split <;> assumption

theorem ite_ne_of_ne {α : Type} {c : Prop} [Decidable c] {a b x : α} (ha : a ≠ x)
    (hb : b ≠ x) : (if c then a else b) ≠ x := by
  split <;> assumption

theorem keyword_to_token_type_ne_eof (w : List Char) :
    keyword_to_token_type w ≠ END_OF_FILE := by
  unfold keyword_to_token_type
  repeat (refine ite_ne_of_ne (by decide) ?_)
  decide

theorem read_digit_not_eof (input : List Char) (pos : Nat) :
    (read_digit input pos).sat not_eof := by
  unfold read_digit
  refine sat_bind fun _ _ => sat_bind fun _ _ => sat_bind fun _ _ => sat_bind fun r _ =>
    sat_ok ?_
  exact ite_ne_of_ne (by decide) (by decide)

theorem read_short_string_not_eof (input : List Char) (pos : Nat) :
    (read_short_string input pos).sat not_eof := by
  unfold read_short_string
  refine sat_bind fun _ _ => sat_bind fun r _ => sat_ok ?_
  exact ite_ne_of_ne (by decide) (by decide)

theorem read_long_string_not_eof (input : List Char) (pos : Nat) :
    (read_long_string input pos).sat not_eof := by
  unfold read_long_string
  refine sat_bind fun r _ => sat_ok ?_
  exact ite_ne_of_ne (by decide) (by decide)

theorem read_short_comment_not_eof (input : List Char) (pos : Nat) :
    (read_short_comment input pos).sat not_eof := by
  unfold read_short_comment
  refine sat_bind fun r _ => sat_ok ?_
  simp [not_eof]

theorem read_long_comment_not_eof (input : List Char) (pos : Nat) :
    (read_long_comment input pos).sat not_eof := by
  unfold read_long_comment
  refine sat_bind fun r _ => sat_ok ?_
  simp [not_eof]

theorem read_other_tokens_tail_not_eof (input : List Char) (type : token_type_t) (pos : Nat)
    (h : type ≠ END_OF_FILE) : (read_other_tokens_tail input type pos).sat not_eof := by
  unfold read_other_tokens_tail
  refine sat_bind fun b _ => sat_ite (sat_bind fun r _ => sat_ok ?_) (sat_ok h)
  exact keyword_to_token_type_ne_eof _

theorem get_matching_then_tail_not_eof (input : List Char) (pos : Nat) (str : List Char)
    (t f : token_type_t) (ht : t ≠ END_OF_FILE) (hf : f ≠ END_OF_FILE) :
    (get_matching_token_type input pos str t f >>= fun r =>
      read_other_tokens_tail input r.1 r.2).sat not_eof := by
  refine sat_bind fun r hr => ?_
  apply read_other_tokens_tail_not_eof
  simp only [get_matching_token_type, bind_eq_ok, pure_eq_ok, Result.ok.injEq] at hr
  obtain ⟨found, -, hr⟩ := hr
  subst hr
  exact ite_ne_of_ne ht hf

theorem read_other_tokens_not_eof (input : List Char) (pos : Nat) :
    (read_other_tokens input pos).sat not_eof := by
  unfold read_other_tokens
  refine sat_bind fun c _ => ?_
  refine sat_ite (get_matching_then_tail_not_eof _ _ _ _ _ (by decide) (by decide)) ?_
  refine sat_ite (get_matching_then_tail_not_eof _ _ _ _ _ (by decide) (by decide)) ?_
  refine sat_ite (get_matching_then_tail_not_eof _ _ _ _ _ (by decide) (by decide)) ?_
  refine sat_ite (get_matching_then_tail_not_eof _ _ _ _ _ (by decide) (by decide)) ?_
  refine sat_ite (get_matching_then_tail_not_eof _ _ _ _ _ (by decide) (by decide)) ?_
  refine sat_ite ?_ (sat_ite ?_ (sat_ite ?_ ?_))
  · refine sat_bind fun _ _ => sat_ite (read_long_comment_not_eof _ _) ?_
    refine sat_bind fun _ _ => sat_ite (read_short_comment_not_eof _ _) ?_
    refine sat_bind fun _ _ => sat_ite (read_digit_not_eof _ _) ?_
    exact read_other_tokens_tail_not_eof _ _ _ (by decide)
  · refine sat_bind fun _ _ => sat_ite (read_digit_not_eof _ _) ?_
    exact read_other_tokens_tail_not_eof _ _ _ (by decide)
  · refine sat_bind fun _ _ => sat_ite (read_long_string_not_eof _ _) ?_
    exact read_other_tokens_tail_not_eof _ _ _ (by decide)
  · exact read_other_tokens_tail_not_eof _ _ _ (by decide)

theorem next_token_switch_ne_eof (c : Char) : next_token_switch c ≠ END_OF_FILE := by
  unfold next_token_switch
  repeat (refine ite_ne_of_ne (by decide) ?_)
  decide

theorem next_token_not_eof (input : List Char) (pos : Nat) :
    (next_token input pos).sat not_eof := by
  unfold next_token
  refine sat_bind fun c _ => sat_ite (read_short_string_not_eof _ _) ?_
  refine sat_ite (read_digit_not_eof _ _) (sat_ite (read_other_tokens_not_eof _ _) (sat_ok ?_))
  exact ite_ne_of_ne (by decide) (next_token_switch_ne_eof c)

/-- The loop of `tokenize` keeps neither `WHITESPACE` nor `END_OF_FILE` tokens. -/
theorem tokenize_loop_kinds (input : List Char) (fuel pos : Nat) (tokens : List token_t)
    (r : List token_t × Nat) (h : tokenize_loop input fuel pos tokens = .ok r)
    (htok : ∀ t ∈ tokens, t.type ≠ WHITESPACE ∧ t.type ≠ END_OF_FILE) :
    ∀ t ∈ r.1, t.type ≠ WHITESPACE ∧ t.type ≠ END_OF_FILE := by
  induction fuel generalizing pos tokens with
  | zero => simp [tokenize_loop] at h
  | succ n ih =>
    unfold tokenize_loop at h
    split at h
    · cases h
      exact htok
    · split at h
      · rename_i r1 hstep
        refine ih _ _ h ?_
        have hne := next_token_not_eof input pos r1 hstep
        split
        · intro t ht
          rcases List.mem_append.1 ht with ht | ht
          · exact htok t ht
          · rw [List.mem_singleton.1 ht]
            exact ⟨by assumption, hne⟩
        · exact htok
      · cases h
      · cases h

/-! ## The claims -/

/-- One turn of the loop of `tokenize` before the end of the input. -/
theorem tokenize_loop_step (input : List Char) (fuel pos : Nat) (tokens : List token_t)
    (token : token_t) (pos1 : Nat) (hpos : is_eof input pos = false)
    (hstep : next_token input pos = .ok (token, pos1)) :
    tokenize_loop input (fuel + 1) pos tokens =
      tokenize_loop input fuel pos1
        (if token.type ≠ WHITESPACE then tokens ++ [token] else tokens) := by
  simp only [tokenize_loop, hpos, hstep]
  rfl

/-- The loop of `tokenize` stops at the end of the input. -/
theorem tokenize_loop_stop (input : List Char) (fuel pos : Nat) (tokens : List token_t)
    (hpos : is_eof input pos = true) :
    tokenize_loop input (fuel + 1) pos tokens = .ok (tokens, pos) := by
  simp only [tokenize_loop, hpos]
  rfl

/-- A dispatch step that returns without moving the cursor, before the end of the input,
repeats for ever: the loop of `tokenize` runs out of every amount of fuel. -/
theorem tokenize_loop_stall (input : List Char) (pos : Nat) (token : token_t)
    (hpos : is_eof input pos = false) (hstep : next_token input pos = .ok (token, pos))
    (fuel : Nat) (tokens : List token_t) :
    tokenize_loop input fuel pos tokens = .timeout := by
  induction fuel generalizing tokens with
  | zero => rfl
  | succ n ih =>
    simp only [tokenize_loop, hpos, hstep]
    exact ih _

/-- When the loop of `tokenize` has kept at least one token, the last token is stored inside
the array block and `tokenize` returns the kept tokens followed by the last token. -/
theorem tokenize_of_loop (input : List Char) (fuel : Nat) (tokens : List token_t) (pos : Nat)
    (hloop : tokenize_loop input fuel 0 [] = .ok (tokens, pos)) (hne : tokens ≠ []) :
    tokenize fuel input = .ok (tokens ++ [end_token]) := by
  have hlen : 0 < tokens.length := List.length_pos.2 hne
  have hfit : (tokens.length + 1) * sizeof_token_ptr ≤ tokens.length * sizeof_token_t := by
    simp only [sizeof_token_ptr, sizeof_token_t]
    omega
  simp only [tokenize, hloop, hfit, if_true]

/-- When the loop of `tokenize` has kept no token, the array block is resized to 0 bytes and
the store of the last token, at index 0, lies outside it. -/
theorem tokenize_of_loop_nil (input : List Char) (fuel : Nat) (pos : Nat)
    (hloop : tokenize_loop input fuel 0 [] = .ok ([], pos)) :
    tokenize fuel input = .undefined 0 := by
  simp only [tokenize, hloop]
  rfl

/-- What `tokenize` returns is what its loop has kept, at least one token, followed by the
last token. -/
theorem tokenize_eq_ok (input : List Char) (fuel : Nat) (tokens : List token_t)
    (h : tokenize fuel input = .ok tokens) :
    ∃ r, tokenize_loop input fuel 0 [] = .ok r ∧ r.1 ≠ [] ∧ tokens = r.1 ++ [end_token] := by
  unfold tokenize at h
  cases hloop : tokenize_loop input fuel 0 [] with
  | ok r =>
    obtain ⟨kept, pos⟩ := r
    rw [hloop] at h
    by_cases hne : kept = []
    · subst hne
      simp [sizeof_token_ptr, sizeof_token_t] at h
    · refine ⟨(kept, pos), rfl, hne, ?_⟩
      have hlen : 0 < kept.length := List.length_pos.2 hne
      have hfit : (kept.length + 1) * sizeof_token_ptr ≤ kept.length * sizeof_token_t := by
        simp only [sizeof_token_ptr, sizeof_token_t]
        omega
      simp only [hfit, if_true] at h
      cases h
      rfl
  | undefined idx =>
    rw [hloop] at h
    cases h
  | timeout =>
    rw [hloop] at h
    cases h

/-- At a character without a lexical rule the dispatch step returns `unidentified` and
leaves the cursor where it was. -/
theorem next_token_no_rule (input : List Char) (pos : Nat) (c : Char)
    (hc : char_at input pos = .ok c) (hr : has_rule c = false) :
    next_token input pos = .ok (plain UNIDENTIFIED, pos) := by
  simp only [has_rule, Bool.or_eq_false_iff, decide_eq_false_iff_not, List.mem_cons,
    List.mem_singleton, List.not_mem_nil, or_false, not_or] at hr
  obtain ⟨⟨⟨⟨⟨⟨hq, hp⟩, hl⟩, hd⟩, hs⟩, ha⟩, hu⟩ := hr
  simp [next_token, hc, next_token_switch, read_other_tokens, read_other_tokens_tail,
    is_valid_ident_start, hq, hp, hl, hd, hs, ha, hu, plain]

/-- C1 (forward progress) fails on the code: at the input `@` and the cursor 0, which is
before the end of the input, one dispatch step returns an `unidentified` token and leaves the
cursor at 0, and the loop of `tokenize` does not terminate: no amount of fuel lets it
return. -/
theorem C1_dispatch_stalls_on_at_sign :
    is_eof "@".toList 0 = false ∧
    next_token "@".toList 0 = .ok (plain UNIDENTIFIED, 0) ∧
    ∀ fuel, tokenize fuel "@".toList = .timeout := by
  refine ⟨by decide, by decide, fun fuel => ?_⟩
  unfold tokenize
  rw [tokenize_loop_stall _ 0 (plain UNIDENTIFIED) (by decide) (by decide)]

/-- C2 fails on the code: for an input made of one character `c` without a lexical rule, the
dispatch step does produce an `unidentified` token, but the cursor stays at 0 instead of
moving to 1, so `tokenize` returns nothing, whatever the fuel. -/
theorem C2_single_unmatched_character_stalls (c : Char) (hc : has_rule c = false) :
    next_token [c] 0 = .ok (plain UNIDENTIFIED, 0) ∧
    ∀ fuel, tokenize fuel [c] = .timeout := by
  have hstep : next_token [c] 0 = .ok (plain UNIDENTIFIED, 0) :=
    next_token_no_rule [c] 0 c (by simp [char_at]) hc
  refine ⟨hstep, fun fuel => ?_⟩
  unfold tokenize
  rw [tokenize_loop_stall [c] 0 (plain UNIDENTIFIED) (by simp [is_eof, has_at_least]) hstep]

/-- C2 at the character `@`. -/
theorem C2_single_unmatched_character_stalls_witness :
    has_rule '@' = false ∧
    next_token ['@'] 0 = .ok (plain UNIDENTIFIED, 0) ∧
    ∀ fuel, tokenize fuel ['@'] = .timeout :=
  ⟨by decide, C2_single_unmatched_character_stalls '@' (by decide)⟩

/-- C7 fails on the code: the enumeration of `lexer.h` declares `SHIFT_LEFT` and
`SHIFT_RIGHT`, and these two members, and no other, have no `case` in `token_to_str`. -/
theorem C7_token_to_str_misses_shift_kinds (k : token_type_t) :
    token_to_str k = none ↔ k = SHIFT_LEFT ∨ k = SHIFT_RIGHT := by
  cases k <;> simp [token_to_str]

/-- C9 fails on the code at the last token: `tokenize(">= > ==")` returns four tokens of the
kinds `greater_eq`, `greater`, `eq`, `end_of_file` (four dispatch steps, the loop stops at its
fifth test), and the three operator tokens are without payload (`value` is `NULL`); the field
`value` of the `end_of_file` token is never assigned, so that token is not "without
payload". -/
theorem C9_end_of_file_value_unassigned (fuel : Nat) :
    tokenize (fuel + 5) ">= > ==".toList =
      .ok [plain GREATER_EQ, plain GREATER, plain EQ, end_token] ∧
    end_token.type = END_OF_FILE ∧ end_token.value = .unassigned ∧
    end_token ≠ plain END_OF_FILE := by
  refine ⟨?_, rfl, rfl, by decide⟩
  unfold tokenize
  rw [tokenize_loop_step _ (fuel + 4) 0 [] (plain GREATER_EQ) 2 (by decide) (by decide),
    tokenize_loop_step _ (fuel + 3) 2 _ (plain WHITESPACE) 3 (by decide) (by decide),
    tokenize_loop_step _ (fuel + 2) 3 _ (plain GREATER) 5 (by decide) (by decide),
    tokenize_loop_step _ (fuel + 1) 5 _ (plain EQ) 7 (by decide) (by decide),
    tokenize_loop_stop _ fuel 7 _ (by decide)]
  rfl

/-- C5 fails on the code at the empty input: the loop keeps no token, the array is resized to
0 bytes and the `end_of_file` token is stored at index 0, outside the block, so no sequence
is returned where the claim says `[end_of_file]`.  The rest of the claim holds: whenever
`tokenize` returns, the returned sequence holds no `whitespace` token and exactly one
`end_of_file` token, which is its last element. -/
theorem C5_empty_input_store_outside_block :
    (∀ fuel, tokenize (fuel + 1) [] = .undefined 0) ∧
    ∀ (fuel : Nat) (input : List Char) (tokens : List token_t),
      tokenize fuel input = .ok tokens →
        (∀ t ∈ tokens, t.type ≠ WHITESPACE) ∧
        tokens.countP (fun t => decide (t.type = END_OF_FILE)) = 1 ∧
        tokens.getLast? = some end_token := by
  refine ⟨fun fuel => rfl, fun fuel input tokens h => ?_⟩
  obtain ⟨r, hr, -, rfl⟩ := tokenize_eq_ok input fuel tokens h
  have hk := tokenize_loop_kinds input fuel 0 [] r hr (by simp)
  refine ⟨?_, ?_, by simp⟩
  · intro t ht
    rcases List.mem_append.1 ht with ht | ht
    · exact (hk t ht).1
    · rw [List.mem_singleton.1 ht]
      decide
  · rw [List.countP_append, List.countP_eq_zero.2]
    · rfl
    · intro t ht
      simpa using (hk t ht).2

/-- C5 at the input `local x = 10`. -/
theorem C5_empty_input_store_outside_block_witness :
    tokenize 7 "local x = 10".toList = .ok [plain LOCAL, with_text IDENT ['x'],
      plain ASSIGN, with_text INT ['1', '0'], end_token] ∧
    (∀ t ∈ [plain LOCAL, with_text IDENT ['x'], plain ASSIGN, with_text INT ['1', '0'],
      end_token], t.type ≠ WHITESPACE) ∧
    [plain LOCAL, with_text IDENT ['x'], plain ASSIGN, with_text INT ['1', '0'],
      end_token].countP (fun t => decide (t.type = END_OF_FILE)) = 1 ∧
    [plain LOCAL, with_text IDENT ['x'], plain ASSIGN, with_text INT ['1', '0'],
      end_token].getLast? = some end_token :=
  ⟨by decide, C5_empty_input_store_outside_block.2 7 "local x = 10".toList _ (by decide)⟩

/-- The loop of `read_short_string` copies a run of characters that are neither the opening
quote nor a backslash, one per iteration. -/
theorem read_short_string_loop_run (start : Char) (s post : List Char)
    (hs : ∀ c ∈ s, c ≠ start ∧ c ≠ '\\') (pre string : List Char) (k : Nat) :
    read_short_string_loop (pre ++ s ++ post) start (k + s.length) pre.length string false =
      read_short_string_loop (pre ++ s ++ post) start k (pre.length + s.length)
        (string ++ s) false := by
  induction s generalizing pre string with
  | nil => simp
  | cons c s ih =>
    have hc := hs c (List.mem_cons_self c s)
    have hrest : ∀ d ∈ s, d ≠ start ∧ d ≠ '\\' := fun d hd => hs d (List.mem_cons_of_mem c hd)
    have hin : pre ++ c :: s ++ post = (pre ++ [c]) ++ s ++ post := by simp
    have hget : char_at (pre ++ c :: s ++ post) pre.length = .ok c := by
      rw [List.append_assoc, List.cons_append]
      exact char_at_append_cons pre c (s ++ post)
    have hfuel : k + (c :: s).length = (k + s.length) + 1 := by simp; omega
    have hlt : pre.length + 0 < (pre ++ c :: s ++ post).length := by simp
    rw [hfuel, read_short_string_loop]
    simp only [hget, has_at_least, hc.1, hc.2, hlt, decide_True, Bool.not_false, Bool.and_self,
      if_true, if_false, ne_eq, not_false_eq_true]
    rw [hin]
    have := ih hrest (pre ++ [c]) (string ++ [c])
    simp only [List.length_append, List.length_singleton] at this
    rw [this]
    simp [Nat.add_assoc, Nat.add_comm 1]

/-- A short string with its closing quote: the reader returns the text between the quotes
and stops behind the closing quote. -/
theorem read_short_string_closed (q : Char) (hq : q ≠ '\\') (pre s post : List Char)
    (hs : ∀ c ∈ s, c ≠ q ∧ c ≠ '\\') :
    read_short_string (pre ++ q :: s ++ q :: post) pre.length =
      .ok (with_text STRING_LITERAL s, pre.length + s.length + 2) := by
  have hin : pre ++ q :: s ++ q :: post = (pre ++ [q]) ++ s ++ (q :: post) := by simp
  have h0 : char_at (pre ++ q :: s ++ q :: post) pre.length = .ok q := by
    rw [List.append_assoc, List.cons_append]
    exact char_at_append_cons pre q _
  have h1 : char_at ((pre ++ [q]) ++ s ++ (q :: post)) (pre.length + 1 + s.length) = .ok q := by
    have hl : ((pre ++ [q]) ++ s).length = pre.length + 1 + s.length := by
      simp only [List.length_append, List.length_singleton]
    rw [← hl]
    exact char_at_append_cons _ q post
  have hfuel : ((pre ++ [q]) ++ s ++ (q :: post)).length + 1 =
      (pre.length + post.length + 3) + s.length := by
    simp; omega
  have hlt : pre.length + 1 + s.length + 0 < ((pre ++ [q]) ++ s ++ (q :: post)).length := by
    simp; omega
  have hrun := read_short_string_loop_run q s (q :: post) hs (pre ++ [q]) []
    (pre.length + post.length + 3)
  simp only [List.length_append, List.length_singleton, List.nil_append] at hrun
  unfold read_short_string
  rw [h0, bind_ok, hin, hfuel, hrun, read_short_string_loop]
  simp only [h1, has_at_least, hlt, hq, decide_True, Bool.not_false, Bool.and_self, if_true,
    if_false, ne_eq, not_true_eq_false]
  simp only [read_short_string_loop, Bool.not_true, Bool.false_and, bind_ok, pure_eq_ok,
    with_text, if_true, Bool.false_eq_true, if_false]
  simp only [Result.ok.injEq, Prod.mk.injEq, true_and]
  omega

/-- A short string without closing quote: the reader returns the text behind the opening
quote and stops at the end of the input. -/
theorem read_short_string_unclosed (q : Char) (pre s : List Char)
    (hs : ∀ c ∈ s, c ≠ q ∧ c ≠ '\\') :
    read_short_string (pre ++ q :: s) pre.length =
      .ok (with_text UNCLOSED_STRING_LITERAL s, pre.length + s.length + 1) := by
  have hin : pre ++ q :: s = (pre ++ [q]) ++ s ++ [] := by simp
  have h0 : char_at (pre ++ q :: s) pre.length = .ok q := char_at_append_cons pre q s
  have hfuel : ((pre ++ [q]) ++ s ++ []).length + 1 = (pre.length + 2) + s.length := by
    simp; omega
  have hnlt : ¬ (pre.length + 1 + s.length + 0 < ((pre ++ [q]) ++ s ++ []).length) := by
    simp; omega
  have hrun := read_short_string_loop_run q s [] hs (pre ++ [q]) [] (pre.length + 2)
  simp only [List.length_append, List.length_singleton, List.nil_append] at hrun
  unfold read_short_string
  rw [h0, bind_ok, hin, hfuel, hrun, read_short_string_loop]
  simp only [has_at_least, hnlt, decide_False, Bool.and_false, Bool.false_eq_true, if_false,
    bind_ok, pure_eq_ok, with_text]
  simp only [Result.ok.injEq, Prod.mk.injEq, true_and]
  omega

/-- At a quote the dispatch step is the short-string reader. -/
theorem next_token_quote (input : List Char) (pos : Nat) (q : Char)
    (hc : char_at input pos = .ok q) (hq : q = '\'' ∨ q = '"') :
    next_token input pos = read_short_string input pos := by
  unfold next_token
  rw [hc, bind_ok, if_pos hq]

/-- C10: for a quote character `q` and a text `s` without `q` and without backslash (newlines
allowed), `tokenize(q ++ s ++ q)` returns `[string_literal(s), end_of_file]` and
`tokenize(q ++ s)` returns `[unclosed_string_literal(s), end_of_file]`, after one dispatch
step each. -/
theorem C10_short_string_kinds (q : Char) (s : List Char) (hq : q = '\'' ∨ q = '"')
    (hs : ∀ c ∈ s, c ≠ q ∧ c ≠ '\\') (fuel : Nat) :
    tokenize (fuel + 2) (q :: s ++ [q]) =
      .ok [with_text STRING_LITERAL s, end_token] ∧
    tokenize (fuel + 2) (q :: s) =
      .ok [with_text UNCLOSED_STRING_LITERAL s, end_token] := by
  have hq1 : q ≠ '\\' := by rcases hq with h | h <;> subst h <;> decide
  constructor
  · have hstep : next_token (q :: s ++ [q]) 0 =
        .ok (with_text STRING_LITERAL s, s.length + 2) := by
      rw [next_token_quote _ 0 q (by simp [char_at]) hq]
      simpa using read_short_string_closed q hq1 [] s [] hs
    unfold tokenize
    rw [tokenize_loop_step _ (fuel + 1) 0 [] _ _ (by simp [is_eof, has_at_least]) hstep,
      tokenize_loop_stop _ fuel _ _ (by simp [is_eof, has_at_least])]
    simp [with_text, plain]
  · have hstep : next_token (q :: s) 0 =
        .ok (with_text UNCLOSED_STRING_LITERAL s, s.length + 1) := by
      rw [next_token_quote _ 0 q (by simp [char_at]) hq]
      simpa using read_short_string_unclosed q [] s hs
    unfold tokenize
    rw [tokenize_loop_step _ (fuel + 1) 0 [] _ _ (by simp [is_eof, has_at_least]) hstep,
      tokenize_loop_stop _ fuel _ _ (by simp [is_eof, has_at_least])]
    simp [with_text, plain]

/-- C10 at the input `"abc` (closed: `"abc"`). -/
theorem C10_short_string_kinds_witness :
    ('"' = '\'' ∨ '"' = '"') ∧ (∀ c ∈ ['a', 'b', 'c'], c ≠ '"' ∧ c ≠ '\\') ∧
    tokenize 2 ['"', 'a', 'b', 'c', '"'] =
      .ok [with_text STRING_LITERAL ['a', 'b', 'c'], end_token] ∧
    tokenize 2 ['"', 'a', 'b', 'c'] =
      .ok [with_text UNCLOSED_STRING_LITERAL ['a', 'b', 'c'], end_token] :=
  ⟨Or.inr rfl, by decide, C10_short_string_kinds '"' ['a', 'b', 'c'] (Or.inr rfl) (by decide) 0⟩

/-- More fuel does not change what the loop of `tokenize` returns. -/
theorem tokenize_loop_fuel_mono (input : List Char) (fuel k pos : Nat)
    (tokens : List token_t) (r : List token_t × Nat)
    (h : tokenize_loop input fuel pos tokens = .ok r) :
    tokenize_loop input (fuel + k) pos tokens = .ok r := by
  induction fuel generalizing pos tokens with
  | zero => simp [tokenize_loop] at h
  | succ n ih =>
    rw [show n + 1 + k = (n + k) + 1 by omega]
    unfold tokenize_loop at h ⊢
    cases hpos : is_eof input pos with
    | true => simpa [hpos] using h
    | false =>
      simp only [hpos, Bool.false_eq_true, if_false] at h ⊢
      cases hstep : next_token input pos with
      | ok r1 =>
        simp only [hstep] at h ⊢
        exact ih _ _ h
      | undefined idx => simp [hstep] at h
      | timeout => simp [hstep] at h

/-- What `tokenize` returns does not depend on the fuel. -/
theorem tokenize_deterministic (input : List Char) (f1 f2 : Nat) (a b : List token_t)
    (h1 : tokenize f1 input = .ok a) (h2 : tokenize f2 input = .ok b) : a = b := by
  obtain ⟨r1, hr1, -, rfl⟩ := tokenize_eq_ok input f1 a h1
  obtain ⟨r2, hr2, -, rfl⟩ := tokenize_eq_ok input f2 b h2
  have e1 := tokenize_loop_fuel_mono input f1 f2 0 [] r1 hr1
  have e2 := tokenize_loop_fuel_mono input f2 f1 0 [] r2 hr2
  rw [Nat.add_comm] at e2
  rw [e1] at e2
  cases e2
  rfl

/-- One turn of the loop that records the spans, before the end of the input. -/
theorem dispatch_spans_step (input : List Char) (fuel pos : Nat) (token : token_t)
    (pos1 : Nat) (hpos : is_eof input pos = false)
    (hstep : next_token input pos = .ok (token, pos1)) :
    dispatch_spans input (fuel + 1) pos =
      (match dispatch_spans input fuel pos1 with
        | .ok spans => .ok ((pos, pos1) :: spans)
        | .undefined i => .undefined i
        | .timeout => .timeout) := by
  simp only [dispatch_spans, hpos, hstep]
  rfl

/-- C6 fails on the code: on the two-character input made of a double quote and a backslash
the scan completes, but its single dispatch step has the span `(0, 3)`: the cursor ends at 3,
behind the end of the input at 2. -/
theorem C6_cursor_passes_end_of_input :
    ['"', '\\'].length = 2 ∧
    tokenize 2 ['"', '\\'] =
      .ok [with_text UNCLOSED_STRING_LITERAL ['\\', '\\'], end_token] ∧
    dispatch_spans ['"', '\\'] 2 0 = .ok [(0, 3)] := by
  decide

/-- On the input `10-5` the whole text is one numeric literal. -/
theorem tokenize_ten_minus_five :
    tokenize 2 "10-5".toList = .ok [with_text INT "10-5".toList, end_token] := by
  decide

/-- C3 fails on the code at `10-5`: whatever the fuel, `tokenize` does not return
`[int("10"), sub, int("5"), end_of_file]`; it returns `[int("10-5"), end_of_file]`. -/
theorem C3_counterexample :
    ¬ ∃ fuel, tokenize fuel "10-5".toList =
      .ok [with_text INT "10".toList, plain SUB, with_text INT "5".toList,
        end_token] := by
  rintro ⟨fuel, h⟩
  exact absurd (tokenize_deterministic _ _ _ _ _ h tokenize_ten_minus_five) (by decide)

/-- Reading at the end of a prefix of the text: the next character, or the terminator. -/
theorem char_at_head (pre post : List Char) :
    char_at (pre ++ post) pre.length = .ok (post.headD NUL) := by
  cases post with
  | nil => simpa using char_at_length pre
  | cons c post => simpa using char_at_append_cons pre c post

/-- A decimal digit differs from every character that is not one. -/
theorem digit_ne (c : Char) (h : isdigit c = true) (k : Char) (hk : isdigit k = false) :
    c ≠ k := by
  rintro rfl
  simp [h] at hk

/-- The loop of `read_digit` copies a run of decimal digits, one per iteration. -/
theorem read_digit_loop_run (d post : List Char) (hd : ∀ c ∈ d, isdigit c = true)
    (pre digit : List Char) (fl : Bool) (k : Nat) :
    read_digit_loop (pre ++ d ++ post) false (k + d.length) pre.length digit fl =
      read_digit_loop (pre ++ d ++ post) false k (pre.length + d.length) (digit ++ d) fl := by
  induction d generalizing pre digit with
  | nil => simp
  | cons c d ih =>
    have hc := hd c (List.mem_cons_self c d)
    have hdot : c ≠ '.' := digit_ne c hc '.' (by decide)
    have hrest : ∀ x ∈ d, isdigit x = true := fun x hx => hd x (List.mem_cons_of_mem c hx)
    have hin : pre ++ c :: d ++ post = (pre ++ [c]) ++ d ++ post := by simp
    have hget : char_at (pre ++ c :: d ++ post) pre.length = .ok c := by
      rw [List.append_assoc, List.cons_append]
      exact char_at_append_cons pre c (d ++ post)
    have hfuel : k + (c :: d).length = (k + d.length) + 1 := by simp; omega
    rw [hfuel, read_digit_loop]
    simp only [hget, hdot, hc, or_true, if_true, if_false]
    rw [hin]
    have := ih hrest (pre ++ [c]) (digit ++ [c])
    simp only [List.length_append, List.length_singleton] at this
    rw [this]
    simp [Nat.add_assoc, Nat.add_comm 1]

/-- A two-character comparison fails when the second character differs. -/
theorem starts_with_two_false (input : List Char) (pos : Nat) (a b c n : Char)
    (h0 : char_at input pos = .ok c) (h1 : char_at input (pos + 1) = .ok n) (hn : n ≠ b) :
    starts_with input [a, b] pos = .ok false := by
  simp only [starts_with, h0, h1]
  by_cases hca : c = a <;> simp [hca, hn]

/-- A non-empty run of decimal digits that is followed by a character ending a number is
read as one `int` token whose payload is the run. -/
theorem read_digit_decimal (pre d post : List Char) (hne : d ≠ [])
    (hd : ∀ c ∈ d, isdigit c = true) (ht : number_stop (post.headD NUL) = true) :
    read_digit (pre ++ d ++ post) pre.length =
      .ok (with_text INT d, pre.length + d.length) := by
  simp only [number_stop, Bool.and_eq_true, decide_eq_true_eq, Bool.not_eq_true'] at ht
  obtain ⟨⟨⟨⟨⟨⟨t1, t2⟩, t3⟩, t4⟩, t5⟩, t6⟩, t7⟩ := ht
  obtain ⟨c, d1, rfl⟩ := List.exists_cons_of_ne_nil hne
  have h0 : char_at (pre ++ c :: d1 ++ post) pre.length = .ok c := by
    rw [List.append_assoc, List.cons_append]
    exact char_at_append_cons pre c _
  have h1 : char_at (pre ++ c :: d1 ++ post) (pre.length + 1) =
      .ok ((d1 ++ post).headD NUL) := by
    have := char_at_head (pre ++ [c]) (d1 ++ post)
    simpa using this
  have hnext : (d1 ++ post).headD NUL ≠ 'x' ∧ (d1 ++ post).headD NUL ≠ 'X' := by
    cases d1 with
    | nil => exact ⟨by simpa using t1, by simpa using t2⟩
    | cons e d2 =>
      have he := hd e (by simp)
      exact ⟨digit_ne e he 'x' (by decide), digit_ne e he 'X' (by decide)⟩
  have hx := starts_with_two_false _ _ '0' 'x' _ _ h0 h1 hnext.1
  have hX := starts_with_two_false _ _ '0' 'X' _ _ h0 h1 hnext.2
  have hend : char_at (pre ++ c :: d1 ++ post) (pre.length + (c :: d1).length) =
      .ok (post.headD NUL) := by
    have := char_at_head (pre ++ c :: d1) post
    simpa using this
  have hfuel : (pre ++ c :: d1 ++ post).length + 1 =
      (pre.length + post.length + 1) + (c :: d1).length := by
    simp; omega
  have hrun := read_digit_loop_run (c :: d1) post hd pre [] false
    (pre.length + post.length + 1)
  unfold read_digit
  simp only [String.toList, hx, hX, bind_ok, Bool.false_eq_true, if_false]
  rw [hfuel, hrun, read_digit_loop]
  simp only [hend, t3, t4, t5, t6, t7, or_self, if_false, Bool.false_eq_true, false_and,
    bind_ok, pure_eq_ok, with_text, List.nil_append]

/-- Reading the text at a position given by a decomposition of the text. -/
theorem char_at_split (input pre : List Char) (c : Char) (post : List Char) (pos : Nat)
    (hin : input = pre ++ c :: post) (hpos : pos = pre.length) :
    char_at input pos = .ok c := by
  subst hin hpos
  exact char_at_append_cons pre c post

/-- Reading the terminator. -/
theorem char_at_end (input : List Char) (pos : Nat) (hpos : pos = input.length) :
    char_at input pos = .ok NUL := by
  subst hpos
  exact char_at_length input

/-- At a decimal digit the dispatch step is the number reader. -/
theorem next_token_digit (input : List Char) (pos : Nat) (c : Char)
    (hc : char_at input pos = .ok c) (hd : isdigit c = true) :
    next_token input pos = read_digit input pos := by
  have h1 : c ≠ '\'' := digit_ne c hd _ (by decide)
  have h2 : c ≠ '"' := digit_ne c hd _ (by decide)
  unfold next_token
  simp [hc, h1, h2, hd]

/-- At a white-space character the dispatch step returns a `whitespace` token and moves the
cursor by one. -/
theorem next_token_space (input : List Char) (pos : Nat) (c : Char)
    (hc : char_at input pos = .ok c) (hs : isspace c = true) :
    next_token input pos = .ok (plain WHITESPACE, pos + 1) := by
  have hfacts : c ≠ '\'' ∧ c ≠ '"' ∧ isdigit c = false := by
    simp only [isspace, decide_eq_true_eq] at hs
    rcases hs with h | h | h | h | h | h <;> subst h <;> decide
  unfold next_token
  simp [hc, hfacts.1, hfacts.2.1, hfacts.2.2, hs, plain]

/-- At a minus sign that is followed by neither a minus sign, nor a digit, nor the start of
an identifier, the dispatch step returns `sub` and moves the cursor by one. -/
theorem next_token_minus_sub (input : List Char) (pos : Nat) (n : Char)
    (hc : char_at input pos = .ok '-') (hn : char_at input (pos + 1) = .ok n)
    (h1 : n ≠ '-') (h2 : isdigit n = false) (h3 : isalpha n = false) (h4 : n ≠ '_') :
    next_token input pos = .ok (plain SUB, pos + 1) := by
  have hlong : starts_with input ['-', '-', '[', '['] pos = .ok false := by
    simp [starts_with, hc, hn, h1]
  have hshort : starts_with input ['-', '-'] pos = .ok false := by
    simp [starts_with, hc, hn, h1]
  have hsw : next_token_switch '-' = UNIDENTIFIED := by decide
  have hd : isdigit '-' = false := by decide
  have hs : isspace '-' = false := by decide
  unfold next_token
  simp only [hc, bind_ok, hsw, hd, hs]
  simp only [read_other_tokens, hc, bind_ok, String.toList, hlong, hshort, hn, h2,
    read_other_tokens_tail, is_valid_ident_start, h3, h4]
  simp [plain]

/-- C3 as amended: a minus sign that stands between blanks is a `sub` token of its own: for
non-empty strings of decimal digits `a` and `b`, `tokenize(a ++ " - " ++ b)` returns
`[int(a), sub, int(b), end_of_file]`. -/
theorem C3_minus_between_blanks (a b : List Char) (ha : a ≠ []) (hb : b ≠ [])
    (hda : ∀ c ∈ a, isdigit c = true) (hdb : ∀ c ∈ b, isdigit c = true) (fuel : Nat) :
    tokenize (fuel + 6) (a ++ [' ', '-', ' '] ++ b) =
      .ok [with_text INT a, plain SUB, with_text INT b, end_token] := by
  obtain ⟨a0, a1, rfl⟩ := List.exists_cons_of_ne_nil ha
  obtain ⟨b0, b1, rfl⟩ := List.exists_cons_of_ne_nil hb
  generalize hI : a0 :: a1 ++ [' ', '-', ' '] ++ b0 :: b1 = input
  have hlen : input.length = (a0 :: a1).length + 3 + (b0 :: b1).length := by
    subst hI; simp; omega
  have e1 : is_eof input 0 = false := by
    simp [is_eof, has_at_least, hlen]
  have s1 : next_token input 0 = .ok (with_text INT (a0 :: a1), (a0 :: a1).length) := by
    rw [next_token_digit input 0 a0
      (char_at_split input [] a0 (a1 ++ ' ' :: '-' :: ' ' :: b0 :: b1) 0 (by subst hI; simp)
        rfl)
      (hda a0 (by simp))]
    have := read_digit_decimal [] (a0 :: a1) (' ' :: '-' :: ' ' :: b0 :: b1) ha hda
      (by show number_stop ' ' = true; decide)
    simpa [← hI] using this
  have e2 : is_eof input (a0 :: a1).length = false := by
    simp [is_eof, has_at_least, hlen]; omega
  have s2 : next_token input (a0 :: a1).length =
      .ok (plain WHITESPACE, (a0 :: a1).length + 1) :=
    next_token_space input _ ' '
      (char_at_split input (a0 :: a1) ' ' ('-' :: ' ' :: b0 :: b1) _ (by subst hI; simp) rfl)
      (by decide)
  have e3 : is_eof input ((a0 :: a1).length + 1) = false := by
    simp [is_eof, has_at_least, hlen]; omega
  have s3 : next_token input ((a0 :: a1).length + 1) =
      .ok (plain SUB, (a0 :: a1).length + 1 + 1) :=
    next_token_minus_sub input _ ' '
      (char_at_split input (a0 :: a1 ++ [' ']) '-' (' ' :: b0 :: b1) _ (by subst hI; simp)
        (by simp))
      (char_at_split input (a0 :: a1 ++ [' ', '-']) ' ' (b0 :: b1) _ (by subst hI; simp)
        (by simp))
      (by decide) (by decide) (by decide) (by decide)
  have e4 : is_eof input ((a0 :: a1).length + 1 + 1) = false := by
    simp [is_eof, has_at_least, hlen]; omega
  have s4 : next_token input ((a0 :: a1).length + 1 + 1) =
      .ok (plain WHITESPACE, (a0 :: a1).length + 1 + 1 + 1) :=
    next_token_space input _ ' '
      (char_at_split input (a0 :: a1 ++ [' ', '-']) ' ' (b0 :: b1) _ (by subst hI; simp)
        (by simp))
      (by decide)
  have e5 : is_eof input ((a0 :: a1).length + 1 + 1 + 1) = false := by
    simp [is_eof, has_at_least, hlen]
  have s5 : next_token input ((a0 :: a1).length + 1 + 1 + 1) =
      .ok (with_text INT (b0 :: b1), (a0 :: a1).length + 1 + 1 + 1 + (b0 :: b1).length) := by
    rw [next_token_digit input _ b0
      (char_at_split input (a0 :: a1 ++ [' ', '-', ' ']) b0 b1 _ (by subst hI; simp)
        (by simp))
      (hdb b0 (by simp))]
    have := read_digit_decimal (a0 :: a1 ++ [' ', '-', ' ']) (b0 :: b1) [] hb hdb
      (by show number_stop NUL = true; decide)
    simpa [← hI] using this
  have e6 : is_eof input ((a0 :: a1).length + 1 + 1 + 1 + (b0 :: b1).length) = true := by
    simp [is_eof, has_at_least, hlen]
  unfold tokenize
  rw [tokenize_loop_step _ (fuel + 5) _ _ _ _ e1 s1,
    tokenize_loop_step _ (fuel + 4) _ _ _ _ e2 s2,
    tokenize_loop_step _ (fuel + 3) _ _ _ _ e3 s3,
    tokenize_loop_step _ (fuel + 2) _ _ _ _ e4 s4,
    tokenize_loop_step _ (fuel + 1) _ _ _ _ e5 s5,
    tokenize_loop_stop _ fuel _ _ e6]
  simp [with_text, plain]

/-- C3 as amended, at the input `10 - 5`. -/
theorem C3_minus_between_blanks_witness :
    ['1', '0'] ≠ [] ∧ ['5'] ≠ [] ∧ (∀ c ∈ ['1', '0'], isdigit c = true) ∧
    (∀ c ∈ ['5'], isdigit c = true) ∧
    tokenize 6 (['1', '0'] ++ [' ', '-', ' '] ++ ['5']) =
      .ok [with_text INT ['1', '0'], plain SUB, with_text INT ['5'], end_token] :=
  ⟨by decide, by decide, by decide, by decide,
    C3_minus_between_blanks ['1', '0'] ['5'] (by decide) (by decide) (by decide) (by decide) 0⟩

/-- The comparison of `starts_with` succeeds on the text it is given. -/
theorem starts_with_here (p pre post : List Char) :
    starts_with (pre ++ p ++ post) p pre.length = .ok true := by
  induction p generalizing pre with
  | nil => rfl
  | cons c p ih =>
    have hget : char_at (pre ++ c :: p ++ post) pre.length = .ok c := by
      rw [List.append_assoc, List.cons_append]
      exact char_at_append_cons pre c (p ++ post)
    have hin : pre ++ c :: p ++ post = (pre ++ [c]) ++ p ++ post := by simp
    have := ih (pre ++ [c])
    simp only [List.length_append, List.length_singleton] at this
    simp only [starts_with, hget, ne_eq, not_true_eq_false, if_false]
    rw [hin]
    exact this

/-- A text that is not a reserved word is given the kind `IDENT`. -/
theorem keyword_to_token_type_not_reserved (w : List Char) (h : w ∉ reserved_words) :
    keyword_to_token_type w = IDENT := by
  simp only [reserved_words, List.mem_cons, List.mem_singleton, List.not_mem_nil, or_false,
    not_or] at h
  obtain ⟨h1, h2, h3, h4, h5, h6, h7, h8, h9, h10, h11, h12, h13, h14, h15, h16, h17, h18,
    h19, h20, h21, h22⟩ := h
  simp only [keyword_to_token_type, h1, h2, h3, h4, h5, h6, h7, h8, h9, h10, h11, h12, h13,
    h14, h15, h16, h17, h18, h19, h20, h21, h22, if_false]

/-- An identifier-start character differs from every character that is not one. -/
theorem ident_start_ne (c : Char) (h : ident_start c = true) (k : Char)
    (hk : ident_start k = false) : c ≠ k := by
  rintro rfl
  simp [h] at hk

/-- A letter is not a decimal digit. -/
theorem isdigit_of_isalpha (c : Char) (h : isalpha c = true) : isdigit c = false := by
  simp only [isalpha, isdigit, decide_eq_true_eq, decide_eq_false_iff_not, Char.le_def,
    UInt32.le_def, BitVec.le_def] at h ⊢
  have e1 : ('a' : Char).val.toBitVec.toNat = 97 := rfl
  have e2 : ('z' : Char).val.toBitVec.toNat = 122 := rfl
  have e3 : ('A' : Char).val.toBitVec.toNat = 65 := rfl
  have e4 : ('Z' : Char).val.toBitVec.toNat = 90 := rfl
  have e5 : ('0' : Char).val.toBitVec.toNat = 48 := rfl
  have e6 : ('9' : Char).val.toBitVec.toNat = 57 := rfl
  rw [e1, e2, e3, e4] at h
  rw [e5, e6]
  omega

/-- An identifier-start character is not a decimal digit. -/
theorem isdigit_of_ident_start (c : Char) (h : ident_start c = true) : isdigit c = false := by
  simp only [ident_start, Bool.or_eq_true, decide_eq_true_eq] at h
  rcases h with h | h
  · exact isdigit_of_isalpha c h
  · subst h
    decide

/-- An identifier-start character has no `case` in the `switch` of `next_token`. -/
theorem next_token_switch_of_ident_start (c : Char) (h : ident_start c = true) :
    next_token_switch c = UNIDENTIFIED := by
  have ne := fun k hk => ident_start_ne c h k hk
  simp only [next_token_switch, ne '(' (by decide), ne ')' (by decide), ne ']' (by decide),
    ne '{' (by decide), ne '}' (by decide), ne ';' (by decide), ne ',' (by decide),
    ne '+' (by decide), ne '*' (by decide), ne '/' (by decide), ne '%' (by decide),
    ne '^' (by decide), ne '#' (by decide), if_false]

/-- An identifier-start character is not a white-space character. -/
theorem isspace_of_ident_start (c : Char) (h : ident_start c = true) : isspace c = false := by
  have ne := fun k hk => ident_start_ne c h k hk
  simp only [isspace, decide_eq_false_iff_not, not_or]
  exact ⟨ne ' ' (by decide), ne '\t' (by decide), ne '\n' (by decide),
    ne (Char.ofNat 11) (by decide), ne (Char.ofNat 12) (by decide), ne '\r' (by decide)⟩

/-- The loop of `read_other_tokens` copies a run of identifier characters. -/
theorem read_word_loop_run (w post : List Char) (hw : ∀ c ∈ w, ident_continue c = true)
    (pre word : List Char) (k : Nat) :
    read_word_loop (pre ++ w ++ post) (k + w.length) pre.length word =
      read_word_loop (pre ++ w ++ post) k (pre.length + w.length) (word ++ w) := by
  induction w generalizing pre word with
  | nil => simp
  | cons c w ih =>
    have hc : (isalpha c || isdigit c || decide (c = '_')) = true := by
      have := hw c (List.mem_cons_self c w)
      simp only [ident_continue, ident_start, Bool.or_eq_true, decide_eq_true_eq] at this ⊢
      tauto
    have hrest : ∀ x ∈ w, ident_continue x = true := fun x hx =>
      hw x (List.mem_cons_of_mem c hx)
    have hin : pre ++ c :: w ++ post = (pre ++ [c]) ++ w ++ post := by simp
    have hget : char_at (pre ++ c :: w ++ post) pre.length = .ok c := by
      rw [List.append_assoc, List.cons_append]
      exact char_at_append_cons pre c (w ++ post)
    have hfuel : k + (c :: w).length = (k + w.length) + 1 := by simp; omega
    rw [hfuel, read_word_loop]
    simp only [is_valid_ident, hget, hc]
    rw [hin]
    have := ih hrest (pre ++ [c]) (word ++ [c])
    simp only [List.length_append, List.length_singleton] at this
    rw [this]
    simp [Nat.add_assoc, Nat.add_comm 1]

/-- At the first character of an identifier-shaped text that is followed by a character which
cannot continue an identifier, the dispatch step reads the whole text and resolves it with
`keyword_to_token_type`; only the kind `IDENT` keeps the text as payload. -/
theorem next_token_word (pre w post : List Char) (hw : ident_shaped w = true)
    (ht : ident_continue (post.headD NUL) = false) :
    next_token (pre ++ w ++ post) pre.length =
      .ok (⟨keyword_to_token_type w,
        if keyword_to_token_type w = IDENT then value_t.text w else value_t.null⟩,
        pre.length + w.length) := by
  cases w with
  | nil => simp [ident_shaped] at hw
  | cons c w1 =>
    simp only [ident_shaped, Bool.and_eq_true, List.all_eq_true] at hw
    obtain ⟨hc, hw1⟩ := hw
    have hall : ∀ x ∈ c :: w1, ident_continue x = true := by
      intro x hx
      rcases List.mem_cons.1 hx with h | h
      · subst h
        simp [ident_continue, hc]
      · exact hw1 x h
    have ne := fun k hk => ident_start_ne c hc k hk
    have hget : char_at (pre ++ c :: w1 ++ post) pre.length = .ok c := by
      rw [List.append_assoc, List.cons_append]
      exact char_at_append_cons pre c (w1 ++ post)
    have hend : char_at (pre ++ c :: w1 ++ post) (pre.length + (c :: w1).length) =
        .ok (post.headD NUL) := by
      have := char_at_head (pre ++ c :: w1) post
      simpa using this
    have hstop : (isalpha (post.headD NUL) || isdigit (post.headD NUL) ||
        decide (post.headD NUL = '_')) = false := by
      simp only [ident_continue, ident_start, Bool.or_eq_false_iff,
        decide_eq_false_iff_not] at ht ⊢
      tauto
    have hstart : (isalpha c || decide (c = '_')) = true := hc
    have hfuel : (pre ++ c :: w1 ++ post).length + 1 =
        (pre.length + post.length + 1) + (c :: w1).length := by
      simp; omega
    have hrun := read_word_loop_run (c :: w1) post hall pre [] (pre.length + post.length + 1)
    unfold next_token
    simp only [hget, bind_ok, ne '\'' (by decide), ne '"' (by decide), or_self, if_false,
      next_token_switch_of_ident_start c hc, isdigit_of_ident_start c hc,
      isspace_of_ident_start c hc, Bool.false_eq_true, if_true]
    simp only [read_other_tokens, hget, bind_ok, ne '~' (by decide), ne '>' (by decide),
      ne '<' (by decide), ne '=' (by decide), ne ':' (by decide), ne '-' (by decide),
      ne '.' (by decide), ne '[' (by decide), if_false, read_other_tokens_tail,
      is_valid_ident_start, hstart, if_true]
    rw [hfuel, hrun, read_word_loop]
    simp only [is_valid_ident, hend, hstop, bind_ok, pure_eq_ok, List.nil_append]

/-- At an `=` whose next character is not `=`, the dispatch step returns `assign` and moves
the cursor by two, provided no identifier starts at the new cursor. -/
theorem next_token_assign (input : List Char) (pos : Nat) (n m : Char)
    (hc : char_at input pos = .ok '=') (hn : char_at input (pos + 1) = .ok n)
    (h1 : n ≠ '=') (hm : char_at input (pos + 2) = .ok m) (h2 : ident_start m = false) :
    next_token input pos = .ok (plain ASSIGN, pos + 2) := by
  have hsw : next_token_switch '=' = UNIDENTIFIED := by decide
  have hd : isdigit '=' = false := by decide
  have hs : isspace '=' = false := by decide
  have hst : starts_with input ['=', '='] pos = .ok false :=
    starts_with_two_false input pos '=' '=' '=' n hc hn h1
  have hm2 : (isalpha m || decide (m = '_')) = false := h2
  unfold next_token
  simp only [hc, bind_ok, hsw, hd, hs]
  simp only [read_other_tokens, hc, bind_ok, get_matching_token_type, String.toList,
    List.length_cons, List.length_nil, Nat.add_sub_cancel, hst, read_other_tokens_tail,
    is_valid_ident_start, hm, hm2]
  simp [plain, hm, hm2]

/-- C8: for an identifier-shaped text `w` that is not a reserved word and a non-empty string
of decimal digits `d`, `tokenize("local " ++ w ++ " = " ++ d)` returns
`[local, ident(w), assign, int(d), end_of_file]`; `local` and `assign` carry no payload. -/
theorem C8_local_assignment (w d : List Char) (hw : ident_shaped w = true)
    (hres : w ∉ reserved_words) (hd0 : d ≠ []) (hd : ∀ c ∈ d, isdigit c = true)
    (fuel : Nat) :
    tokenize (fuel + 7) ("local ".toList ++ w ++ " = ".toList ++ d) =
      .ok [plain LOCAL, with_text IDENT w, plain ASSIGN, with_text INT d,
        end_token] := by
  obtain ⟨d0, d1, rfl⟩ := List.exists_cons_of_ne_nil hd0
  have hd0d : isdigit d0 = true := hd d0 (by simp)
  generalize hI : "local ".toList ++ w ++ " = ".toList ++ d0 :: d1 = input
  have hlen : input.length = w.length + 9 + (d0 :: d1).length := by
    subst hI; simp; omega
  have e1 : is_eof input 0 = false := by
    simp [is_eof, has_at_least, hlen]
  have s1 : next_token input 0 = .ok (plain LOCAL, 5) := by
    have := next_token_word [] "local".toList (' ' :: w ++ " = ".toList ++ d0 :: d1)
      (by decide) (by show ident_continue ' ' = false; decide)
    rw [show keyword_to_token_type "local".toList = LOCAL by decide] at this
    simpa [← hI, plain] using this
  have e2 : is_eof input 5 = false := by
    simp [is_eof, has_at_least, hlen]; omega
  have s2 : next_token input 5 = .ok (plain WHITESPACE, 5 + 1) :=
    next_token_space input 5 ' '
      (char_at_split input "local".toList ' ' (w ++ " = ".toList ++ d0 :: d1) 5
        (by subst hI; simp) rfl)
      (by decide)
  have e3 : is_eof input (5 + 1) = false := by
    simp [is_eof, has_at_least, hlen]; omega
  have s3 : next_token input (5 + 1) = .ok (with_text IDENT w, 5 + 1 + w.length) := by
    have := next_token_word "local ".toList w (" = ".toList ++ d0 :: d1) hw
      (by show ident_continue ' ' = false; decide)
    rw [keyword_to_token_type_not_reserved w hres] at this
    simpa [← hI, with_text] using this
  have e4 : is_eof input (5 + 1 + w.length) = false := by
    simp [is_eof, has_at_least, hlen]; omega
  have s4 : next_token input (5 + 1 + w.length) =
      .ok (plain WHITESPACE, 5 + 1 + w.length + 1) :=
    next_token_space input _ ' '
      (char_at_split input ("local ".toList ++ w) ' ' ('=' :: ' ' :: d0 :: d1) _
        (by subst hI; simp)
        (by simp_arith))
      (by decide)
  have e5 : is_eof input (5 + 1 + w.length + 1) = false := by
    simp [is_eof, has_at_least, hlen]; omega
  have s5 : next_token input (5 + 1 + w.length + 1) =
      .ok (plain ASSIGN, 5 + 1 + w.length + 1 + 2) :=
    next_token_assign input _ ' ' d0
      (char_at_split input ("local ".toList ++ w ++ [' ']) '=' (' ' :: d0 :: d1) _
        (by subst hI; simp)
        (by simp_arith))
      (char_at_split input ("local ".toList ++ w ++ [' ', '=']) ' ' (d0 :: d1) _
        (by subst hI; simp)
        (by simp_arith))
      (by decide)
      (char_at_split input ("local ".toList ++ w ++ [' ', '=', ' ']) d0 d1 _
        (by subst hI; simp)
        (by simp_arith))
      (by
        cases h : ident_start d0
        · rfl
        · rw [isdigit_of_ident_start d0 h] at hd0d
          cases hd0d)
  have e6 : is_eof input (5 + 1 + w.length + 1 + 2) = false := by
    simp [is_eof, has_at_least, hlen]; omega
  have s6 : next_token input (5 + 1 + w.length + 1 + 2) =
      .ok (with_text INT (d0 :: d1), 5 + 1 + w.length + 1 + 2 + (d0 :: d1).length) := by
    rw [next_token_digit input _ d0
      (char_at_split input ("local ".toList ++ w ++ [' ', '=', ' ']) d0 d1 _
        (by subst hI; simp)
        (by simp_arith))
      hd0d]
    have := read_digit_decimal ("local ".toList ++ w ++ " = ".toList) (d0 :: d1) [] hd0 hd
      (by show number_stop NUL = true; decide)
    rw [show ("local ".toList ++ w ++ " = ".toList).length = 5 + 1 + w.length + 1 + 2 by
      simp_arith] at this
    simpa [← hI] using this
  have e7 : is_eof input (5 + 1 + w.length + 1 + 2 + (d0 :: d1).length) = true := by
    simp [is_eof, has_at_least, hlen]; omega
  unfold tokenize
  rw [tokenize_loop_step _ (fuel + 6) _ _ _ _ e1 s1,
    tokenize_loop_step _ (fuel + 5) _ _ _ _ e2 s2,
    tokenize_loop_step _ (fuel + 4) _ _ _ _ e3 s3,
    tokenize_loop_step _ (fuel + 3) _ _ _ _ e4 s4,
    tokenize_loop_step _ (fuel + 2) _ _ _ _ e5 s5,
    tokenize_loop_step _ (fuel + 1) _ _ _ _ e6 s6,
    tokenize_loop_stop _ fuel _ _ e7]
  simp [with_text, plain]

/-- C8 at the input `local x = 10`. -/
theorem C8_local_assignment_witness :
    ident_shaped ['x'] = true ∧ ['x'] ∉ reserved_words ∧ ['1', '0'] ≠ [] ∧
    (∀ c ∈ ['1', '0'], isdigit c = true) ∧
    tokenize 7 ("local ".toList ++ ['x'] ++ " = ".toList ++ ['1', '0']) =
      .ok [plain LOCAL, with_text IDENT ['x'], plain ASSIGN, with_text INT ['1', '0'],
        end_token] :=
  ⟨by decide, by decide, by decide, by decide,
    C8_local_assignment ['x'] ['1', '0'] (by decide) (by decide) (by decide) (by decide) 0⟩

/-! ## The bounds of the inner loops are large enough

Every loop of a reader is given `input.length + 1` units of fuel.  The lemmas below show that
no reader runs out of it, so `timeout` can only come from the loop of `tokenize`. -/

theorem halts_ok {α : Type} (a : α) : (Result.ok a).halts := by
  simp [Result.halts]

theorem halts_undefined {α : Type} {i : Nat} : (Result.undefined i : Result α).halts := by
  simp [Result.halts]

theorem halts_bind {α β : Type} {x : Result α} {f : α → Result β} (hx : x.halts)
    (hf : ∀ a, x = Result.ok a → (f a).halts) : (x >>= f).halts := by
  cases x with
  | ok a => exact hf a rfl
  | undefined idx => exact halts_undefined
  | timeout => exact absurd rfl hx

theorem halts_ite {α : Type} {c : Prop} [Decidable c] {x y : Result α} (hx : x.halts)
    (hy : y.halts) : (if c then x else y).halts := by
  split <;> assumption

theorem char_at_halts (input : List Char) (pos : Nat) : (char_at input pos).halts := by
  unfold char_at
  split
  · exact halts_ok _
  · exact halts_ite (halts_ok _) halts_undefined

/-- A character read inside the text, or the terminator. -/
theorem char_at_ok_cases (input : List Char) (pos : Nat) (c : Char)
    (h : char_at input pos = .ok c) : pos < input.length ∨ c = NUL := by
  by_cases hlt : pos < input.length
  · exact Or.inl hlt
  · right
    have hnone : input[pos]? = none := List.getElem?_eq_none (Nat.le_of_not_lt hlt)
    simp only [char_at, hnone] at h
    split at h
    · cases h
      rfl
    · cases h

theorem starts_with_halts (str p : List Char) (pos : Nat) : (starts_with str p pos).halts := by
  induction p generalizing pos with
  | nil => exact halts_ok _
  | cons c p ih =>
    unfold starts_with
    cases h : char_at str pos with
    | ok d => exact halts_ite (halts_ok _) (ih _)
    | undefined idx => exact halts_undefined
    | timeout => exact absurd h (char_at_halts str pos)

theorem read_digit_loop_halts (input : List Char) (is_hex : Bool) (fuel pos : Nat)
    (digit : List Char) (fl : Bool) (h1 : 1 ≤ fuel) (h2 : input.length + 1 ≤ fuel + pos) :
    (read_digit_loop input is_hex fuel pos digit fl).halts := by
  induction fuel generalizing pos digit fl with
  | zero => omega
  | succ n ih =>
    unfold read_digit_loop
    cases h : char_at input pos with
    | undefined idx => exact halts_undefined
    | timeout => exact absurd h (char_at_halts input pos)
    | ok c =>
      rcases char_at_ok_cases input pos c h with hlt | hnul
      · have hn : 1 ≤ n := by omega
        have hp : input.length + 1 ≤ n + (pos + 1) := by omega
        exact halts_ite (ih _ _ _ hn hp) (halts_ite (ih _ _ _ hn hp)
          (halts_ite (ih _ _ _ hn hp) (halts_ite (ih _ _ _ hn hp) (halts_ok _))))
      · subst hnul
        have e1 : ¬ NUL = '.' := by decide
        have e2 : ¬ (NUL = '-' ∨ isdigit NUL = true) := by decide
        have e3 : ¬ (NUL = 'e' ∨ NUL = 'E') := by decide
        have e4 : isxdigit NUL = false := by decide
        simp only [e1, e2, e3, e4, if_false, Bool.false_eq_true, and_false]
        exact halts_ok _

theorem read_hex_head_halts (input : List Char) (pos : Nat) :
    (read_hex_head input pos).halts := by
  unfold read_hex_head
  exact halts_bind (char_at_halts _ _) fun _ _ =>
    halts_bind (char_at_halts _ _) fun _ _ => halts_ok _

/-- A successful comparison with a non-empty text reads inside the input. -/
theorem starts_with_true_lt (input : List Char) (a : Char) (p : List Char) (pos : Nat)
    (ha : a ≠ NUL) (h : starts_with input (a :: p) pos = .ok true) :
    pos < input.length := by
  unfold starts_with at h
  cases hc : char_at input pos with
  | undefined idx => simp [hc] at h
  | timeout => simp [hc] at h
  | ok c =>
    rcases char_at_ok_cases input pos c hc with hlt | hnul
    · exact hlt
    · subst hnul
      simp only [hc] at h
      rw [if_pos (fun e => ha e.symm)] at h
      cases h

theorem read_digit_halts (input : List Char) (pos : Nat) : (read_digit input pos).halts := by
  unfold read_digit
  refine halts_bind (starts_with_halts _ _ _) fun lower _ => ?_
  refine halts_bind (halts_ite (halts_ok _) (starts_with_halts _ _ _)) fun is_hex _ => ?_
  refine halts_bind (halts_ite (read_hex_head_halts _ _) (halts_ok _)) fun st _ => ?_
  refine halts_bind (read_digit_loop_halts _ _ _ _ _ _ (by omega) (by omega)) fun r _ => ?_
  exact halts_ok _

theorem read_short_string_loop_halts (input : List Char) (start : Char) (fuel pos : Nat)
    (string : List Char) (cl : Bool) (h1 : 1 ≤ fuel) (h2 : input.length + 1 ≤ fuel + pos) :
    (read_short_string_loop input start fuel pos string cl).halts := by
  induction fuel generalizing pos string cl with
  | zero => omega
  | succ n ih =>
    unfold read_short_string_loop
    split
    · rename_i hcond
      have hlt : pos < input.length := by
        simp only [has_at_least, Bool.and_eq_true, decide_eq_true_eq] at hcond
        omega
      have hn : 1 ≤ n := by omega
      cases h : char_at input pos with
      | undefined idx => exact halts_undefined
      | timeout => exact absurd h (char_at_halts input pos)
      | ok c =>
        simp only []
        refine halts_ite (ih _ _ _ hn ?_) (ih _ _ _ hn ?_) <;> split <;> omega
    · exact halts_ok _

theorem read_short_string_halts (input : List Char) (pos : Nat) :
    (read_short_string input pos).halts := by
  unfold read_short_string
  refine halts_bind (char_at_halts _ _) fun start _ => ?_
  refine halts_bind (read_short_string_loop_halts _ _ _ _ _ _ (by omega) (by omega))
    fun r _ => ?_
  exact halts_ok _

theorem read_long_string_loop_halts (input : List Char) (fuel pos : Nat)
    (string : List Char) (cl : Bool) (h1 : 1 ≤ fuel) (h2 : input.length + 1 ≤ fuel + pos) :
    (read_long_string_loop input fuel pos string cl).halts := by
  induction fuel generalizing pos string cl with
  | zero => omega
  | succ n ih =>
    unfold read_long_string_loop
    split
    · rename_i hcond
      have hlt : pos < input.length := by
        simp only [has_at_least, Bool.and_eq_true, decide_eq_true_eq] at hcond
        omega
      have hn : 1 ≤ n := by omega
      cases h : char_at input pos with
      | undefined idx => exact halts_undefined
      | timeout => exact absurd h (char_at_halts input pos)
      | ok c1 =>
        cases h' : char_at input (pos + 1) with
        | undefined idx => exact halts_undefined
        | timeout => exact absurd h' (char_at_halts input (pos + 1))
        | ok c2 =>
          exact halts_ite (ih _ _ _ hn (by omega)) (ih _ _ _ hn (by omega))
    · exact halts_ok _

theorem read_long_string_halts (input : List Char) (pos : Nat) :
    (read_long_string input pos).halts := by
  unfold read_long_string
  refine halts_bind (read_long_string_loop_halts _ _ _ _ _ (by omega) (by omega))
    fun r _ => ?_
  exact halts_ok _

theorem read_short_comment_loop_halts (input : List Char) (fuel pos : Nat)
    (comment : List Char) (h1 : 1 ≤ fuel) (h2 : input.length + 1 ≤ fuel + pos) :
    (read_short_comment_loop input fuel pos comment).halts := by
  induction fuel generalizing pos comment with
  | zero => omega
  | succ n ih =>
    unfold read_short_comment_loop
    cases h : char_at input pos with
    | undefined idx => exact halts_undefined
    | timeout => exact absurd h (char_at_halts input pos)
    | ok c =>
      simp only []
      split
      · rename_i hcond
        have hlt : pos < input.length := by
          simp only [has_at_least, decide_eq_true_eq] at hcond
          omega
        exact ih _ _ (by omega) (by omega)
      · exact halts_ok _

theorem read_short_comment_halts (input : List Char) (pos : Nat) :
    (read_short_comment input pos).halts := by
  unfold read_short_comment
  refine halts_bind (read_short_comment_loop_halts _ _ _ _ (by omega) (by omega))
    fun r _ => ?_
  exact halts_ok _

theorem read_long_comment_loop_halts (input : List Char) (fuel pos : Nat)
    (comment : List Char) (h1 : 1 ≤ fuel) (h2 : input.length + 1 ≤ fuel + pos) :
    (read_long_comment_loop input fuel pos comment).halts := by
  induction fuel generalizing pos comment with
  | zero => omega
  | succ n ih =>
    unfold read_long_comment_loop
    cases h : starts_with input "]]".toList pos with
    | undefined idx => exact halts_undefined
    | timeout => exact absurd h (starts_with_halts _ _ _)
    | ok closer =>
      simp only []
      split
      · rename_i hcond
        have hlt : pos < input.length := by
          simp only [has_at_least, Bool.and_eq_true, decide_eq_true_eq] at hcond
          omega
        cases h' : char_at input pos with
        | undefined idx => exact halts_undefined
        | timeout => exact absurd h' (char_at_halts input pos)
        | ok c => exact ih _ _ (by omega) (by omega)
      · exact halts_ok _

theorem read_long_comment_halts (input : List Char) (pos : Nat) :
    (read_long_comment input pos).halts := by
  unfold read_long_comment
  refine halts_bind (read_long_comment_loop_halts _ _ _ _ (by omega) (by omega))
    fun r _ => ?_
  exact halts_ok _

theorem read_word_loop_halts (input : List Char) (fuel pos : Nat) (word : List Char)
    (h1 : 1 ≤ fuel) (h2 : input.length + 1 ≤ fuel + pos) :
    (read_word_loop input fuel pos word).halts := by
  induction fuel generalizing pos word with
  | zero => omega
  | succ n ih =>
    unfold read_word_loop
    simp only [is_valid_ident]
    cases h : char_at input pos with
    | undefined idx => exact halts_undefined
    | timeout => exact absurd h (char_at_halts input pos)
    | ok c =>
      simp only []
      cases hb : (isalpha c || isdigit c || decide (c = '_')) with
      | false => exact halts_ok _
      | true =>
        simp only []
        rcases char_at_ok_cases input pos c h with hlt | hnul
        · exact ih _ _ (by omega) (by omega)
        · subst hnul
          exact absurd hb (by decide)

theorem is_valid_ident_start_halts (input : List Char) (pos : Nat) :
    (is_valid_ident_start input pos).halts := by
  unfold is_valid_ident_start
  cases h : char_at input pos with
  | undefined idx => exact halts_undefined
  | timeout => exact absurd h (char_at_halts input pos)
  | ok c => exact halts_ok _

theorem read_other_tokens_tail_halts (input : List Char) (type : token_type_t) (pos : Nat) :
    (read_other_tokens_tail input type pos).halts := by
  unfold read_other_tokens_tail
  refine halts_bind (is_valid_ident_start_halts _ _) fun b _ => halts_ite ?_ (halts_ok _)
  exact halts_bind (read_word_loop_halts _ _ _ _ (by omega) (by omega)) fun r _ => halts_ok _

theorem get_matching_then_tail_halts (input : List Char) (pos : Nat) (str : List Char)
    (t f : token_type_t) :
    (get_matching_token_type input pos str t f >>= fun r =>
      read_other_tokens_tail input r.1 r.2).halts := by
  refine halts_bind ?_ fun r _ => read_other_tokens_tail_halts _ _ _
  unfold get_matching_token_type
  exact halts_bind (starts_with_halts _ _ _) fun _ _ => halts_ok _

theorem read_other_tokens_halts (input : List Char) (pos : Nat) :
    (read_other_tokens input pos).halts := by
  unfold read_other_tokens
  refine halts_bind (char_at_halts _ _) fun c _ => ?_
  refine halts_ite (get_matching_then_tail_halts _ _ _ _ _) ?_
  refine halts_ite (get_matching_then_tail_halts _ _ _ _ _) ?_
  refine halts_ite (get_matching_then_tail_halts _ _ _ _ _) ?_
  refine halts_ite (get_matching_then_tail_halts _ _ _ _ _) ?_
  refine halts_ite (get_matching_then_tail_halts _ _ _ _ _) ?_
  refine halts_ite ?_ (halts_ite ?_ (halts_ite ?_ ?_))
  · refine halts_bind (starts_with_halts _ _ _) fun _ _ =>
      halts_ite (read_long_comment_halts _ _) ?_
    refine halts_bind (starts_with_halts _ _ _) fun _ _ =>
      halts_ite (read_short_comment_halts _ _) ?_
    refine halts_bind (char_at_halts _ _) fun _ _ => halts_ite (read_digit_halts _ _) ?_
    exact read_other_tokens_tail_halts _ _ _
  · refine halts_bind (char_at_halts _ _) fun _ _ => halts_ite (read_digit_halts _ _) ?_
    exact read_other_tokens_tail_halts _ _ _
  · refine halts_bind (starts_with_halts _ _ _) fun _ _ =>
      halts_ite (read_long_string_halts _ _) ?_
    exact read_other_tokens_tail_halts _ _ _
  · exact read_other_tokens_tail_halts _ _ _

/-- A dispatch step never runs out of the fuel of its inner loops: it returns, or it reads
outside the buffer. -/
theorem next_token_halts (input : List Char) (pos : Nat) : (next_token input pos).halts := by
  unfold next_token
  refine halts_bind (char_at_halts _ _) fun c _ => halts_ite (read_short_string_halts _ _) ?_
  exact halts_ite (read_digit_halts _ _) (halts_ite (read_other_tokens_halts _ _) (halts_ok _))

/-! ## The claims on operators, escapes and exponents -/

/-- C13 fails on the code: on `-x` the step at the `-` returns `ident("x")` with the cursor at
2 in place of `sub` with the cursor at 1; `a.b` and `t[i]` lose their `attr` and
`left_bracket` tokens in the same way. -/
theorem C13_fallback_token_replaced_by_identifier :
    next_token "-x".toList 0 = .ok (with_text IDENT ['x'], 2) ∧
    tokenize 3 "a.b".toList =
      .ok [with_text IDENT ['a'], with_text IDENT ['b'], end_token] ∧
    tokenize 4 "t[i]".toList =
      .ok [with_text IDENT ['t'], with_text IDENT ['i'], plain RIGHT_BRACKET,
        end_token] := by
  decide

/-- C14 fails on the code: for the body `a\nb` (a backslash and the letter `n` between `a`
and `b`) between double quotes, the payload is `a\\b`: the backslash is copied twice and the
`n` is dropped.  An escaped quote does not close the string, but is dropped as well. -/
theorem C14_escape_not_copied_verbatim :
    tokenize 2 ['"', 'a', '\\', 'n', 'b', '"'] =
      .ok [with_text STRING_LITERAL ['a', '\\', '\\', 'b'], end_token] ∧
    tokenize 2 ['"', 'a', '\\', '"', 'b', '"'] =
      .ok [with_text STRING_LITERAL ['a', '\\', '\\', 'b'], end_token] := by
  decide

/-- C16 fails on the code for the sign `+`: `tokenize("1e+5")` returns three tokens before
`end_of_file`, the literal `1e`, `add` and the literal `5`; with the sign `-` the text
`1e-5` is one literal. -/
theorem C16_plus_sign_ends_the_literal :
    tokenize 4 "1e+5".toList =
      .ok [with_text INT "1e".toList, plain ADD, with_text INT "5".toList,
        end_token] ∧
    tokenize 2 "1e-5".toList = .ok [with_text INT "1e-5".toList, end_token] := by
  decide

/-! ## Reserved words and identifiers -/

/-- On a reserved word `keyword_to_token_type` gives a kind other than `IDENT`, and
`token_to_str` names that kind by the word itself. -/
theorem keyword_to_token_type_reserved (w : List Char) (h : w ∈ reserved_words) :
    keyword_to_token_type w ≠ IDENT ∧
    token_to_str (keyword_to_token_type w) = some (String.mk w) := by
  simp only [reserved_words, List.mem_cons, List.mem_singleton, List.not_mem_nil,
    or_false] at h
  rcases h with h | h | h | h | h | h | h | h | h | h | h | h | h | h | h | h | h | h | h | h |
    h | h <;> subst h <;> exact ⟨by decide, rfl⟩

/-- The result of `tokenize` on an identifier-shaped text. -/
theorem tokenize_word (w : List Char) (hw : ident_shaped w = true) (fuel : Nat) :
    tokenize (fuel + 2) w =
      .ok [⟨keyword_to_token_type w,
        if keyword_to_token_type w = IDENT then value_t.text w else value_t.null⟩, end_token] := by
  have hne : w ≠ [] := by
    rintro rfl
    simp [ident_shaped] at hw
  have hpos : 0 < w.length := List.length_pos.2 hne
  have hstep := next_token_word [] w [] hw (by show ident_continue NUL = false; decide)
  simp only [List.nil_append, List.append_nil, List.length_nil, Nat.zero_add] at hstep
  unfold tokenize
  rw [tokenize_loop_step _ (fuel + 1) 0 [] _ _ (by simp [is_eof, has_at_least, hpos]) hstep,
    tokenize_loop_stop _ fuel _ _ (by simp [is_eof, has_at_least])]
  have hk : keyword_to_token_type w ≠ WHITESPACE := by
    unfold keyword_to_token_type
    repeat (refine ite_ne_of_ne (by decide) ?_)
    decide
  simp [hk, plain]

/-- C11: for an identifier-shaped text `w`: if `w` is one of the 22 reserved words,
`tokenize(w)` returns `[k, end_of_file]` where `k` is a reserved-word kind (not `ident`) with
`token_to_str(k) = w`, without payload; otherwise it returns `[ident(w), end_of_file]` with
the payload `w`. -/
theorem C11_keyword_resolution (w : List Char) (hw : ident_shaped w = true) (fuel : Nat) :
    (w ∈ reserved_words → ∃ k, k ≠ IDENT ∧ token_to_str k = some (String.mk w) ∧
      tokenize (fuel + 2) w = .ok [plain k, end_token]) ∧
    (w ∉ reserved_words →
      tokenize (fuel + 2) w = .ok [with_text IDENT w, end_token]) := by
  constructor
  · intro h
    obtain ⟨h1, h2⟩ := keyword_to_token_type_reserved w h
    refine ⟨keyword_to_token_type w, h1, h2, ?_⟩
    rw [tokenize_word w hw fuel, if_neg h1]
    rfl
  · intro h
    have h1 := keyword_to_token_type_not_reserved w h
    rw [tokenize_word w hw fuel, h1, if_pos rfl]
    rfl

/-- C11 at the reserved word `while` and at the identifier `foo`. -/
theorem C11_keyword_resolution_witness :
    ident_shaped "while".toList = true ∧ "while".toList ∈ reserved_words ∧
    (∃ k, k ≠ IDENT ∧ token_to_str k = some (String.mk "while".toList) ∧
      tokenize 2 "while".toList = .ok [plain k, end_token]) ∧
    ident_shaped "foo".toList = true ∧ "foo".toList ∉ reserved_words ∧
    tokenize 2 "foo".toList = .ok [with_text IDENT "foo".toList, end_token] :=
  ⟨by decide, by decide,
    (C11_keyword_resolution "while".toList (by decide) 0).1 (by decide),
    by decide, by decide,
    (C11_keyword_resolution "foo".toList (by decide) 0).2 (by decide)⟩

/-! ## Long strings -/

/-- The first character of a text that does not start with `]`, or the terminator, is
not `]`. -/
theorem headD_ne_bracket (l : List Char) (h : l.head? ≠ some ']') : l.headD NUL ≠ ']' := by
  cases l with
  | nil => decide
  | cons x xs => simpa using h

/-- In a text without `]]`, no `]` is followed by `]`, also at the end of the input. -/
theorem no_closer_unclosed (s : List Char) (h1 : ¬ [']', ']'] <:+: s) (u v : List Char)
    (huv : s = u ++ ']' :: v) : (v ++ []).head? ≠ some ']' := by
  cases v with
  | nil => simp
  | cons x v1 =>
    simp only [List.cons_append, List.head?_cons, ne_eq, Option.some.injEq]
    intro hx
    apply h1
    refine ⟨u, v1, ?_⟩
    rw [huv, hx]
    simp

/-- In a text without `]]` that does not end with `]` and is followed by `]]`, no `]]` starts
before the final one. -/
theorem no_closer_closed (s post : List Char) (h1 : ¬ [']', ']'] <:+: s)
    (h2 : s.getLast? ≠ some ']') (u v : List Char) (huv : s = u ++ ']' :: v) :
    (v ++ (']' :: ']' :: post)).head? ≠ some ']' := by
  cases v with
  | nil =>
    exfalso
    apply h2
    rw [huv]
    simp
  | cons x v1 =>
    simp only [List.cons_append, List.head?_cons, ne_eq, Option.some.injEq]
    intro hx
    apply h1
    refine ⟨u, v1, ?_⟩
    rw [huv, hx]
    simp

/-- The loop of `read_long_string` copies a run of characters in which no `]]` starts. -/
theorem read_long_string_loop_run (r post : List Char)
    (hr : ∀ u v, r = u ++ ']' :: v → (v ++ post).head? ≠ some ']')
    (pre string : List Char) (k : Nat) :
    read_long_string_loop (pre ++ r ++ post) (k + r.length) pre.length string false =
      read_long_string_loop (pre ++ r ++ post) k (pre.length + r.length) (string ++ r)
        false := by
  induction r generalizing pre string with
  | nil => simp
  | cons c r ih =>
    have hrest : ∀ u v, r = u ++ ']' :: v → (v ++ post).head? ≠ some ']' := by
      intro u v huv
      exact hr (c :: u) v (by simp [huv])
    have hin : pre ++ c :: r ++ post = (pre ++ [c]) ++ r ++ post := by simp
    have hget : char_at (pre ++ c :: r ++ post) pre.length = .ok c := by
      rw [List.append_assoc, List.cons_append]
      exact char_at_append_cons pre c (r ++ post)
    have hnext : char_at (pre ++ c :: r ++ post) (pre.length + 1) =
        .ok ((r ++ post).headD NUL) := by
      have := char_at_head (pre ++ [c]) (r ++ post)
      simpa using this
    have hcond : c ≠ ']' ∨ (r ++ post).headD NUL ≠ ']' := by
      by_cases hc : c = ']'
      · exact Or.inr (headD_ne_bracket _ (hr [] r (by simp [hc])))
      · exact Or.inl hc
    have hlt : pre.length + 0 < (pre ++ c :: r ++ post).length := by simp
    have hfuel : k + (c :: r).length = (k + r.length) + 1 := by simp; omega
    rw [hfuel, read_long_string_loop]
    simp only [has_at_least, hlt, hget, hnext, decide_True, Bool.not_false, Bool.and_self,
      if_true, hcond]
    rw [hin]
    have := ih hrest (pre ++ [c]) (string ++ [c])
    simp only [List.length_append, List.length_singleton] at this
    rw [this]
    simp [Nat.add_assoc, Nat.add_comm 1]

/-- A long string with its closer: the reader returns the text between `[[` and `]]` and
stops behind the closer. -/
theorem read_long_string_closed (pre s post : List Char)
    (hs : ∀ u v, s = u ++ ']' :: v → (v ++ (']' :: ']' :: post)).head? ≠ some ']') :
    read_long_string (pre ++ '[' :: '[' :: s ++ ']' :: ']' :: post) pre.length =
      .ok (with_text STRING_LITERAL s, pre.length + s.length + 4) := by
  have hin : pre ++ '[' :: '[' :: s ++ ']' :: ']' :: post =
      (pre ++ ['[', '[']) ++ s ++ (']' :: ']' :: post) := by simp
  have hfuel : ((pre ++ ['[', '[']) ++ s ++ (']' :: ']' :: post)).length + 1 =
      (pre.length + post.length + 5) + s.length := by
    simp; omega
  have hrun := read_long_string_loop_run s (']' :: ']' :: post) hs (pre ++ ['[', '[']) []
    (pre.length + post.length + 5)
  have hl : (pre ++ ['[', '[']).length = pre.length + 2 := by simp
  rw [hl] at hrun
  have h1 : char_at ((pre ++ ['[', '[']) ++ s ++ (']' :: ']' :: post))
      (pre.length + 2 + s.length) = .ok ']' :=
    char_at_split _ ((pre ++ ['[', '[']) ++ s) ']' (']' :: post) _ rfl (by simp_arith)
  have h2 : char_at ((pre ++ ['[', '[']) ++ s ++ (']' :: ']' :: post))
      (pre.length + 2 + s.length + 1) = .ok ']' :=
    char_at_split _ ((pre ++ ['[', '[']) ++ s ++ [']']) ']' post _ (by simp) (by simp_arith)
  have hlt : pre.length + 2 + s.length + 0 <
      ((pre ++ ['[', '[']) ++ s ++ (']' :: ']' :: post)).length := by
    simp; omega
  unfold read_long_string
  rw [hin, hfuel, hrun, read_long_string_loop]
  simp only [has_at_least, hlt, h1, h2, decide_True, Bool.not_false, Bool.and_self, if_true,
    ne_eq, not_true_eq_false, or_self, if_false, List.nil_append]
  simp only [read_long_string_loop, Bool.not_true, Bool.false_and, Bool.false_eq_true,
    if_false, bind_ok, pure_eq_ok, with_text, if_true]
  simp only [Result.ok.injEq, Prod.mk.injEq, true_and]
  omega

/-- A long string without closer: the reader returns the text behind `[[` and stops at the
end of the input. -/
theorem read_long_string_unclosed (pre s : List Char)
    (hs : ∀ u v, s = u ++ ']' :: v → (v ++ []).head? ≠ some ']') :
    read_long_string (pre ++ '[' :: '[' :: s) pre.length =
      .ok (with_text UNCLOSED_STRING_LITERAL s, pre.length + s.length + 2) := by
  have hin : pre ++ '[' :: '[' :: s = (pre ++ ['[', '[']) ++ s ++ [] := by simp
  have hfuel : ((pre ++ ['[', '[']) ++ s ++ []).length + 1 = (pre.length + 3) + s.length := by
    simp; omega
  have hrun := read_long_string_loop_run s [] hs (pre ++ ['[', '[']) [] (pre.length + 3)
  have hl : (pre ++ ['[', '[']).length = pre.length + 2 := by simp
  rw [hl] at hrun
  have hnlt : ¬ (pre.length + 2 + s.length + 0 < ((pre ++ ['[', '[']) ++ s ++ []).length) := by
    simp; omega
  unfold read_long_string
  rw [hin, hfuel, hrun, read_long_string_loop]
  simp only [has_at_least, hnlt, decide_False, Bool.and_false, Bool.false_eq_true, if_false,
    bind_ok, pure_eq_ok, with_text, List.nil_append]
  simp only [Result.ok.injEq, Prod.mk.injEq, true_and]
  omega

/-- At `[[` the dispatch step is the long-string reader. -/
theorem next_token_long_string (input : List Char) (pos : Nat)
    (hc : char_at input pos = .ok '[')
    (hl : starts_with input ['[', '['] pos = .ok true) :
    next_token input pos = read_long_string input pos := by
  have hsw : next_token_switch '[' = UNIDENTIFIED := by decide
  have hd : isdigit '[' = false := by decide
  have hs : isspace '[' = false := by decide
  unfold next_token
  simp only [hc, bind_ok, hsw, hd, hs]
  simp [read_other_tokens, hc, hl]

/-- C19: for a text `s` without `]]`, `tokenize("[[" ++ s)` returns
`[unclosed_string_literal(s), end_of_file]`, and if `s` does not end with `]` either,
`tokenize("[[" ++ s ++ "]]")` returns `[string_literal(s), end_of_file]`: the payload is the
text between the delimiters, and one dispatch step consumes the whole input. -/
theorem C19_long_string (s : List Char) (h1 : ¬ [']', ']'] <:+: s) (fuel : Nat) :
    tokenize (fuel + 2) (['[', '['] ++ s) =
      .ok [with_text UNCLOSED_STRING_LITERAL s, end_token] ∧
    (s.getLast? ≠ some ']' →
      tokenize (fuel + 2) (['[', '['] ++ s ++ [']', ']']) =
        .ok [with_text STRING_LITERAL s, end_token]) := by
  constructor
  · have hstep : next_token (['[', '['] ++ s) 0 =
        .ok (with_text UNCLOSED_STRING_LITERAL s, s.length + 2) := by
      rw [next_token_long_string _ 0 (by simp [char_at])
        (by simpa using starts_with_here ['[', '['] [] s)]
      simpa using read_long_string_unclosed [] s (no_closer_unclosed s h1)
    unfold tokenize
    rw [tokenize_loop_step _ (fuel + 1) 0 [] _ _ (by simp [is_eof, has_at_least]) hstep,
      tokenize_loop_stop _ fuel _ _ (by simp [is_eof, has_at_least])]
    simp [with_text, plain]
  · intro h2
    have hstep : next_token (['[', '['] ++ s ++ [']', ']']) 0 =
        .ok (with_text STRING_LITERAL s, s.length + 4) := by
      rw [next_token_long_string _ 0 (by simp [char_at])
        (by simpa using starts_with_here ['[', '['] [] (s ++ [']', ']']))]
      simpa using read_long_string_closed [] s [] (no_closer_closed s [] h1 h2)
    unfold tokenize
    rw [tokenize_loop_step _ (fuel + 1) 0 [] _ _ (by simp [is_eof, has_at_least]) hstep,
      tokenize_loop_stop _ fuel _ _ (by simp [is_eof, has_at_least])]
    simp [with_text, plain]

/-- C19 at the text `a\b`, with a backslash, and a line break behind it. -/
theorem C19_long_string_witness :
    (¬ [']', ']'] <:+: ['a', '\\', 'b', '\n']) ∧
    ['a', '\\', 'b', '\n'].getLast? ≠ some ']' ∧
    tokenize 2 (['[', '['] ++ ['a', '\\', 'b', '\n']) =
      .ok [with_text UNCLOSED_STRING_LITERAL ['a', '\\', 'b', '\n'], end_token] ∧
    tokenize 2 (['[', '['] ++ ['a', '\\', 'b', '\n'] ++ [']', ']']) =
      .ok [with_text STRING_LITERAL ['a', '\\', 'b', '\n'], end_token] :=
  ⟨by decide, by decide, (C19_long_string ['a', '\\', 'b', '\n'] (by decide) 0).1,
    (C19_long_string ['a', '\\', 'b', '\n'] (by decide) 0).2 (by decide)⟩

/-! ## Comments -/

/-- The loop of `read_short_comment` copies a run of characters without line break. -/
theorem read_short_comment_loop_run (r post : List Char) (hr : ∀ c ∈ r, c ≠ '\n')
    (pre comment : List Char) (k : Nat) :
    read_short_comment_loop (pre ++ r ++ post) (k + r.length) pre.length comment =
      read_short_comment_loop (pre ++ r ++ post) k (pre.length + r.length) (comment ++ r) := by
  induction r generalizing pre comment with
  | nil => simp
  | cons c r ih =>
    have hc : c ≠ '\n' := hr c (List.mem_cons_self c r)
    have hrest : ∀ x ∈ r, x ≠ '\n' := fun x hx => hr x (List.mem_cons_of_mem c hx)
    have hin : pre ++ c :: r ++ post = (pre ++ [c]) ++ r ++ post := by simp
    have hget : char_at (pre ++ c :: r ++ post) pre.length = .ok c := by
      rw [List.append_assoc, List.cons_append]
      exact char_at_append_cons pre c (r ++ post)
    have hlt : pre.length + 0 < (pre ++ c :: r ++ post).length := by simp
    have hfuel : k + (c :: r).length = (k + r.length) + 1 := by simp; omega
    rw [hfuel, read_short_comment_loop]
    simp only [hget, has_at_least, hlt, hc, decide_True, ne_eq, not_false_eq_true, and_self,
      if_true]
    rw [hin]
    have := ih hrest (pre ++ [c]) (comment ++ [c])
    simp only [List.length_append, List.length_singleton] at this
    rw [this]
    simp [Nat.add_assoc, Nat.add_comm 1]

/-- A short comment up to the end of the input or up to a line break: the reader returns the
text from the cursor on and stops at the end or in front of the line break. -/
theorem read_short_comment_line (pre r post : List Char) (hr : ∀ c ∈ r, c ≠ '\n')
    (hpost : post = [] ∨ ∃ rest, post = '\n' :: rest) :
    read_short_comment (pre ++ r ++ post) pre.length =
      .ok (with_text SHORT_COMMENT r, pre.length + r.length) := by
  have hfuel : (pre ++ r ++ post).length + 1 = (pre.length + post.length + 1) + r.length := by
    simp; omega
  have hrun := read_short_comment_loop_run r post hr pre [] (pre.length + post.length + 1)
  have hend : char_at (pre ++ r ++ post) (pre.length + r.length) = .ok (post.headD NUL) := by
    have := char_at_head (pre ++ r) post
    simpa using this
  unfold read_short_comment
  rw [hfuel, hrun, read_short_comment_loop]
  rcases hpost with rfl | ⟨rest, rfl⟩
  · have hnlt : ¬ (pre.length + r.length + 0 < (pre ++ r ++ []).length) := by simp
    simp only [hend, has_at_least, hnlt, decide_False, Bool.false_eq_true, and_false, if_false,
      bind_ok, pure_eq_ok, with_text, List.nil_append]
  · simp only [hend, List.headD_cons, ne_eq, not_true_eq_false, false_and, if_false, bind_ok,
      pure_eq_ok, with_text, List.nil_append]

/-- At `--` that does not start `--[[` the dispatch step is the short-comment reader, started
at the first `-`. -/
theorem next_token_short_comment (input : List Char) (pos : Nat)
    (hc : char_at input pos = .ok '-')
    (hl : starts_with input ['-', '-', '[', '['] pos = .ok false)
    (hs : starts_with input ['-', '-'] pos = .ok true) :
    next_token input pos = read_short_comment input pos := by
  have hsw : next_token_switch '-' = UNIDENTIFIED := by decide
  have hd : isdigit '-' = false := by decide
  have hsp : isspace '-' = false := by decide
  unfold next_token
  simp only [hc, bind_ok, hsw, hd, hsp]
  simp [read_other_tokens, hc, hl, hs]

/-- The comparison with `--[[` fails when the third character is not `[`, or the fourth
is not. -/
theorem starts_with_opener_false (input : List Char) (pos : Nat) (x : Char)
    (h0 : char_at input pos = .ok '-') (h1 : char_at input (pos + 1) = .ok '-')
    (h2 : char_at input (pos + 1 + 1) = .ok x)
    (h3 : x ≠ '[' ∨ ∃ y, char_at input (pos + 1 + 1 + 1) = .ok y ∧ y ≠ '[') :
    starts_with input ['-', '-', '[', '['] pos = .ok false := by
  simp only [starts_with, h0, h1, h2, ne_eq, not_true_eq_false, if_false]
  rcases h3 with hx | ⟨y, hy, hne⟩
  · rw [if_pos hx]
  · by_cases hx : x = '['
    · rw [if_neg (not_not.2 hx), hy]
      simp only []
      rw [if_pos hne]
    · rw [if_pos hx]

/-- Behind `--`, a text that does not start with `[[` and is followed by the end of the input
or by a line break does not make the comparison with `--[[` succeed. -/
theorem starts_with_long_opener_false (s post : List Char) (hs : ¬ ['[', '['] <+: s)
    (hpost : post = [] ∨ ∃ rest, post = '\n' :: rest) :
    starts_with ('-' :: '-' :: (s ++ post)) ['-', '-', '[', '['] 0 = .ok false := by
  have h0 : char_at ('-' :: '-' :: (s ++ post)) 0 = .ok '-' := by simp [char_at]
  have h1 : char_at ('-' :: '-' :: (s ++ post)) (0 + 1) = .ok '-' := by simp [char_at]
  have h2 : char_at ('-' :: '-' :: (s ++ post)) (0 + 1 + 1) = .ok ((s ++ post).headD NUL) := by
    simpa using char_at_head ['-', '-'] (s ++ post)
  have hp : post.headD NUL ≠ '[' := by
    rcases hpost with rfl | ⟨rest, rfl⟩
    · decide
    · show '\n' ≠ '['
      decide
  refine starts_with_opener_false _ 0 _ h0 h1 h2 ?_
  match s, hs with
  | [], _ => exact Or.inl (by simpa using hp)
  | [a], _ =>
    by_cases ha : a = '['
    · right
      refine ⟨post.headD NUL, ?_, hp⟩
      simpa using char_at_head ['-', '-', a] post
    · exact Or.inl (by simpa using ha)
  | a :: b :: s1, hs =>
    by_cases ha : a = '['
    · right
      refine ⟨b, ?_, ?_⟩
      · simpa using char_at_append_cons ['-', '-', a] b (s1 ++ post)
      · intro hb
        apply hs
        rw [ha, hb]
        exact ⟨s1, rfl⟩
    · exact Or.inl (by simpa using ha)

/-- The dispatch step on a short comment `--s`, up to the end of the input or a line break. -/
theorem next_token_short_comment_line (s post : List Char) (h1 : ∀ c ∈ s, c ≠ '\n')
    (h2 : ¬ ['[', '['] <+: s) (hpost : post = [] ∨ ∃ rest, post = '\n' :: rest) :
    next_token (['-', '-'] ++ s ++ post) 0 =
      .ok (with_text SHORT_COMMENT (['-', '-'] ++ s), s.length + 2) := by
  have hin : ['-', '-'] ++ s ++ post = '-' :: '-' :: (s ++ post) := by simp
  have hr : ∀ c ∈ ['-', '-'] ++ s, c ≠ '\n' := by
    intro c hc
    rcases List.mem_append.1 hc with h | h
    · simp only [List.mem_cons, List.mem_singleton, List.not_mem_nil, or_false, or_self] at h
      subst h
      decide
    · exact h1 c h
  rw [next_token_short_comment _ 0 (by simp [char_at])
    (by rw [hin]; exact starts_with_long_opener_false s post h2 hpost)
    (by simpa using starts_with_here ['-', '-'] [] (s ++ post))]
  have := read_short_comment_line [] (['-', '-'] ++ s) post hr hpost
  rw [show ([] : List Char).length + (['-', '-'] ++ s).length = s.length + 2 by
    simp_arith] at this
  simpa using this

/-- On the input `--hello` the payload of the comment starts with the two dashes. -/
theorem tokenize_dashes_hello :
    tokenize 2 "--hello".toList =
      .ok [with_text SHORT_COMMENT "--hello".toList, end_token] := by
  decide

/-- C18 fails on the code at the text `hello`: whatever the fuel, `tokenize("--hello")` does
not return `[short_comment("hello"), end_of_file]`. -/
theorem C18_counterexample :
    ¬ ∃ fuel, tokenize fuel "--hello".toList =
      .ok [with_text SHORT_COMMENT "hello".toList, end_token] := by
  rintro ⟨fuel, h⟩
  exact absurd (tokenize_deterministic _ _ _ _ _ h tokenize_dashes_hello) (by decide)

/-- C18 as amended: for a text `s` without line break that does not start with `[[`,
`tokenize("--" ++ s)` returns `[short_comment("--" ++ s), end_of_file]`: the payload is the
comment text with its two dashes; and when a line break follows, the step stops in front of
it: the payload is the same and the cursor is at the line break. -/
theorem C18_short_comment (s : List Char) (h1 : ∀ c ∈ s, c ≠ '\n')
    (h2 : ¬ ['[', '['] <+: s) :
    (∀ fuel, tokenize (fuel + 2) (['-', '-'] ++ s) =
      .ok [with_text SHORT_COMMENT (['-', '-'] ++ s), end_token]) ∧
    (∀ rest, next_token (['-', '-'] ++ s ++ '\n' :: rest) 0 =
        .ok (with_text SHORT_COMMENT (['-', '-'] ++ s), s.length + 2) ∧
      char_at (['-', '-'] ++ s ++ '\n' :: rest) (s.length + 2) = .ok '\n') := by
  constructor
  · intro fuel
    have hstep := next_token_short_comment_line s [] h1 h2 (Or.inl rfl)
    rw [List.append_nil] at hstep
    unfold tokenize
    rw [tokenize_loop_step _ (fuel + 1) 0 [] _ _ (by simp [is_eof, has_at_least]) hstep,
      tokenize_loop_stop _ fuel _ _ (by simp [is_eof, has_at_least])]
    simp [with_text, plain]
  · intro rest
    exact ⟨next_token_short_comment_line s ('\n' :: rest) h1 h2 (Or.inr ⟨rest, rfl⟩),
      char_at_split _ (['-', '-'] ++ s) '\n' rest _ rfl (by simp_arith)⟩

/-- C18 as amended, at the text `hello`. -/
theorem C18_short_comment_witness :
    (∀ c ∈ "hello".toList, c ≠ '\n') ∧ (¬ ['[', '['] <+: "hello".toList) ∧
    (∀ fuel, tokenize (fuel + 2) (['-', '-'] ++ "hello".toList) =
      .ok [with_text SHORT_COMMENT (['-', '-'] ++ "hello".toList), end_token]) ∧
    (∀ rest, next_token (['-', '-'] ++ "hello".toList ++ '\n' :: rest) 0 =
        .ok (with_text SHORT_COMMENT (['-', '-'] ++ "hello".toList), "hello".toList.length + 2) ∧
      char_at (['-', '-'] ++ "hello".toList ++ '\n' :: rest) ("hello".toList.length + 2) =
        .ok '\n') :=
  ⟨by decide, by decide, C18_short_comment "hello".toList (by decide) (by decide)⟩

/-! ## Numbers -/

/-- Outside hex mode the loop of `read_digit` copies the longest run of number characters in
front of it, and the flag `is_float` is raised exactly by a decimal point in that run. -/
theorem read_digit_loop_takeWhile (suf : List Char) (pre digit : List Char) (fl : Bool)
    (fuel : Nat) (hfuel : suf.length < fuel) :
    read_digit_loop (pre ++ suf) false fuel pre.length digit fl =
      .ok (pre.length + (suf.takeWhile number_char).length,
        digit ++ suf.takeWhile number_char,
        fl || decide ('.' ∈ suf.takeWhile number_char)) := by
  induction suf generalizing pre digit fl fuel with
  | nil =>
    obtain ⟨n, rfl⟩ : ∃ n, fuel = n + 1 := ⟨fuel - 1, by simp at hfuel; omega⟩
    have hget : char_at (pre ++ []) pre.length = .ok NUL := char_at_end _ _ (by simp)
    have e1 : ¬ NUL = '.' := by decide
    have e2 : ¬ (NUL = '-' ∨ isdigit NUL = true) := by decide
    have e3 : ¬ (NUL = 'e' ∨ NUL = 'E') := by decide
    rw [read_digit_loop]
    simp only [hget, e1, e2, e3, if_false, Bool.false_eq_true, false_and]
    simp
  | cons c suf ih =>
    obtain ⟨n, rfl⟩ : ∃ n, fuel = n + 1 := ⟨fuel - 1, by simp at hfuel; omega⟩
    have hn : suf.length < n := by simp at hfuel; omega
    have hin : pre ++ c :: suf = (pre ++ [c]) ++ suf := by simp
    have hget : char_at (pre ++ c :: suf) pre.length = .ok c := char_at_append_cons pre c suf
    have hl : (pre ++ [c]).length = pre.length + 1 := by simp
    rw [read_digit_loop]
    simp only [hget, Bool.false_eq_true, false_and, if_false]
    by_cases h1 : c = '.'
    · have hnc : number_char c = true := by subst h1; decide
      have htw : (c :: suf).takeWhile number_char = c :: suf.takeWhile number_char := by
        simp [List.takeWhile_cons, hnc]
      have hmem : '.' ∈ c :: suf.takeWhile number_char := by simp [h1]
      rw [if_pos h1, hin, ← hl, ih (pre ++ [c]) (digit ++ [c]) true n hn, htw]
      simp only [List.length_cons, List.length_nil, List.length_append, List.length_singleton, hmem,
        decide_True, Bool.or_true, Bool.true_or, List.append_assoc, List.singleton_append]
      simp only [Result.ok.injEq, Prod.mk.injEq, and_true]
      omega
    · rw [if_neg h1]
      have hne : ('.' : Char) ≠ c := fun e => h1 e.symm
      by_cases h2 : c = '-' ∨ isdigit c = true
      · have hnc : number_char c = true := by
          simp only [number_char, Bool.or_eq_true, decide_eq_true_eq]
          tauto
        have htw : (c :: suf).takeWhile number_char = c :: suf.takeWhile number_char := by
          simp [List.takeWhile_cons, hnc]
        rw [if_pos h2, hin, ← hl, ih (pre ++ [c]) (digit ++ [c]) fl n hn, htw]
        simp only [List.length_cons, List.length_nil, List.length_append, List.length_singleton, List.mem_cons,
          hne, false_or, List.append_assoc, List.singleton_append]
        simp only [Result.ok.injEq, Prod.mk.injEq, and_true]
        omega
      · rw [if_neg h2]
        by_cases h3 : c = 'e' ∨ c = 'E'
        · have hnc : number_char c = true := by
            simp only [number_char, Bool.or_eq_true, decide_eq_true_eq]
            tauto
          have h4 : ¬ (c = '-' ∨ c = '+') := by
            rcases h3 with h | h <;> subst h <;> decide
          have htw : (c :: suf).takeWhile number_char = c :: suf.takeWhile number_char := by
            simp [List.takeWhile_cons, hnc]
          rw [if_pos h3, if_neg h4, hin, ← hl, ih (pre ++ [c]) (digit ++ [c]) fl n hn, htw]
          simp only [List.length_cons, List.length_nil, List.length_append, List.length_singleton,
            List.mem_cons, hne, false_or, List.append_assoc, List.singleton_append]
          simp only [Result.ok.injEq, Prod.mk.injEq, and_true]
          omega
        · have hnc : number_char c = false := by
            simp only [number_char, Bool.or_eq_false_iff, decide_eq_false_iff_not]
            simp only [not_or, Bool.not_eq_true] at h2 h3
            exact ⟨⟨⟨⟨h1, h2.1⟩, h2.2⟩, h3.1⟩, h3.2⟩
          rw [if_neg h3]
          simp [List.takeWhile_cons, hnc]

/-- The text taken by `takeWhile` is the text of that length at the front. -/
theorem take_length_takeWhile (f : Char → Bool) (l : List Char) :
    l.take (l.takeWhile f).length = l.takeWhile f := by
  induction l with
  | nil => rfl
  | cons c l ih =>
    by_cases h : f c = true
    · simp [List.takeWhile_cons, h, ih]
    · simp [List.takeWhile_cons, h]

/-- Without a `0x` or `0X` at the cursor, `read_digit` returns the longest run of number
characters, as a `float` if the run holds a decimal point and as an `int` otherwise. -/
theorem read_digit_no_hex (pre suf : List Char)
    (hx : starts_with (pre ++ suf) ['0', 'x'] pre.length = .ok false)
    (hX : starts_with (pre ++ suf) ['0', 'X'] pre.length = .ok false) :
    read_digit (pre ++ suf) pre.length =
      .ok (⟨if '.' ∈ suf.takeWhile number_char then FLOAT else INT,
        .text (suf.takeWhile number_char)⟩,
        pre.length + (suf.takeWhile number_char).length) := by
  have hrun := read_digit_loop_takeWhile suf pre [] false ((pre ++ suf).length + 1)
    (by simp; omega)
  unfold read_digit
  simp only [String.toList, hx, hX, bind_ok, Bool.false_eq_true, if_false, hrun, pure_eq_ok,
    List.nil_append, Bool.false_or, decide_eq_true_eq]

/-- A comparison with a two-character text whose first character differs fails. -/
theorem starts_with_first_false (input : List Char) (pos : Nat) (a b c : Char)
    (h0 : char_at input pos = .ok c) (hc : c ≠ a) :
    starts_with input [a, b] pos = .ok false := by
  simp only [starts_with, h0]
  rw [if_pos hc]

/-- The dispatch step at a decimal digit that does not start `0x` or `0X`. -/
theorem next_token_number (c0 : Char) (rest : List Char) (hd : isdigit c0 = true)
    (hhex : ¬ (c0 = '0' ∧ (rest.head? = some 'x' ∨ rest.head? = some 'X'))) :
    next_token (c0 :: rest) 0 =
      .ok (⟨if '.' ∈ (c0 :: rest).takeWhile number_char then FLOAT else INT,
        .text ((c0 :: rest).takeWhile number_char)⟩,
        ((c0 :: rest).takeWhile number_char).length) := by
  have h0 : char_at (c0 :: rest) 0 = .ok c0 := by simp [char_at]
  have h1 : char_at (c0 :: rest) (0 + 1) = .ok (rest.headD NUL) := by
    simpa using char_at_head [c0] rest
  have hx : starts_with ([] ++ c0 :: rest) ['0', 'x'] ([] : List Char).length = .ok false := by
    by_cases hc : c0 = '0'
    · refine starts_with_two_false _ _ '0' 'x' _ _ h0 h1 ?_
      intro hn
      apply hhex
      refine ⟨hc, Or.inl ?_⟩
      cases rest with
      | nil => exact absurd hn (by decide)
      | cons y ys => simpa using hn
    · exact starts_with_first_false _ _ '0' 'x' c0 h0 hc
  have hX : starts_with ([] ++ c0 :: rest) ['0', 'X'] ([] : List Char).length = .ok false := by
    by_cases hc : c0 = '0'
    · refine starts_with_two_false _ _ '0' 'X' _ _ h0 h1 ?_
      intro hn
      apply hhex
      refine ⟨hc, Or.inr ?_⟩
      cases rest with
      | nil => exact absurd hn (by decide)
      | cons y ys => simpa using hn
    · exact starts_with_first_false _ _ '0' 'X' c0 h0 hc
  rw [next_token_digit _ 0 c0 h0 hd]
  have := read_digit_no_hex [] (c0 :: rest) hx hX
  simpa using this

/-- C15 fails on the code at `1e5`: the first token consumes the text `1e5`, which holds an
exponent marker, and its kind is `int`, not `float`. -/
theorem C15_counterexample :
    next_token "1e5".toList 0 = .ok (with_text INT "1e5".toList, 3) ∧
    'e' ∈ "1e5".toList.take 3 ∧ (with_text INT "1e5".toList).type ≠ FLOAT := by
  decide

/-- C15 as amended: for an input that starts with a decimal digit and has no `0x`/`0X` at its
start, the first dispatch step returns a numeric literal whose payload is the text it
consumed, and whose kind is `float` if and only if that text contains a decimal point, and
`int` otherwise. -/
theorem C15_float_iff_decimal_point (c0 : Char) (rest : List Char) (hd : isdigit c0 = true)
    (hhex : ¬ (c0 = '0' ∧ (rest.head? = some 'x' ∨ rest.head? = some 'X'))) :
    ∃ tok p, next_token (c0 :: rest) 0 = .ok (tok, p) ∧ 0 < p ∧
      tok.value = .text ((c0 :: rest).take p) ∧
      (tok.type = FLOAT ↔ '.' ∈ (c0 :: rest).take p) ∧
      (tok.type = INT ↔ '.' ∉ (c0 :: rest).take p) := by
  have hnc : number_char c0 = true := by simp [number_char, hd]
  have htw : (c0 :: rest).takeWhile number_char = c0 :: rest.takeWhile number_char := by
    simp [List.takeWhile_cons, hnc]
  refine ⟨_, _, next_token_number c0 rest hd hhex, ?_, ?_, ?_, ?_⟩
  · rw [htw]
    simp
  · rw [take_length_takeWhile]
  · rw [take_length_takeWhile]
    by_cases h : '.' ∈ (c0 :: rest).takeWhile number_char <;> simp [h]
  · rw [take_length_takeWhile]
    by_cases h : '.' ∈ (c0 :: rest).takeWhile number_char <;> simp [h]

/-- C15 as amended, at the inputs `1.5` and `1e5`. -/
theorem C15_float_iff_decimal_point_witness :
    isdigit '1' = true ∧
    ¬ ('1' = '0' ∧ (['.', '5'].head? = some 'x' ∨ ['.', '5'].head? = some 'X')) ∧
    (∃ tok p, next_token ('1' :: ['.', '5']) 0 = .ok (tok, p) ∧ 0 < p ∧
      tok.value = .text (('1' :: ['.', '5']).take p) ∧
      (tok.type = FLOAT ↔ '.' ∈ ('1' :: ['.', '5']).take p) ∧
      (tok.type = INT ↔ '.' ∉ ('1' :: ['.', '5']).take p)) ∧
    ¬ ('1' = '0' ∧ (['e', '5'].head? = some 'x' ∨ ['e', '5'].head? = some 'X')) ∧
    (∃ tok p, next_token ('1' :: ['e', '5']) 0 = .ok (tok, p) ∧ 0 < p ∧
      tok.value = .text (('1' :: ['e', '5']).take p) ∧
      (tok.type = FLOAT ↔ '.' ∈ ('1' :: ['e', '5']).take p) ∧
      (tok.type = INT ↔ '.' ∉ ('1' :: ['e', '5']).take p)) :=
  ⟨by decide, by decide, C15_float_iff_decimal_point '1' ['.', '5'] (by decide) (by decide),
    by decide, C15_float_iff_decimal_point '1' ['e', '5'] (by decide) (by decide)⟩

/-! ## Every reader returns, and where its cursor ends -/

/-- Inside the text and at the terminator the read is defined. -/
theorem char_at_defined (input : List Char) (pos : Nat) (h : pos ≤ input.length) :
    ∃ c, char_at input pos = .ok c := by
  rcases Nat.lt_or_eq_of_le h with hlt | heq
  · exact ⟨_, char_at_lt input pos hlt⟩
  · exact ⟨NUL, char_at_end input pos heq⟩

/-- Behind the terminator the read is not defined. -/
theorem char_at_beyond (input : List Char) (pos : Nat) (h : input.length < pos) :
    char_at input pos = .undefined pos := by
  have hnone : input[pos]? = none := List.getElem?_eq_none (Nat.le_of_lt h)
  simp only [char_at, hnone]
  rw [if_neg (by omega)]

/-- A character other than the terminator is read inside the text. -/
theorem char_at_lt_of_ne (input : List Char) (pos : Nat) (c : Char)
    (h : char_at input pos = .ok c) (hc : c ≠ NUL) : pos < input.length := by
  rcases char_at_ok_cases input pos c h with hlt | hnul
  · exact hlt
  · exact absurd hnul hc

/-- A comparison that starts inside the buffer is defined. -/
theorem starts_with_defined (input p : List Char) (pos : Nat) (hp : NUL ∉ p)
    (hpos : pos ≤ input.length) : ∃ b, starts_with input p pos = .ok b := by
  induction p generalizing pos with
  | nil => exact ⟨true, rfl⟩
  | cons a p ih =>
    obtain ⟨c, hc⟩ := char_at_defined input pos hpos
    simp only [starts_with, hc]
    by_cases hca : c = a
    · subst hca
      have hlt := char_at_lt_of_ne input pos c hc (fun e => hp (by simp [e]))
      rw [if_neg (not_not.2 rfl)]
      exact ih (pos + 1) (fun h => hp (List.mem_cons_of_mem _ h)) (by omega)
    · rw [if_pos hca]
      exact ⟨false, rfl⟩

/-- A successful comparison with a two-character text reads two characters of the input. -/
theorem starts_with_two_true_lt (input : List Char) (a b : Char) (pos : Nat)
    (ha : a ≠ NUL) (hb : b ≠ NUL) (h : starts_with input [a, b] pos = .ok true) :
    pos + 1 < input.length := by
  have h0 := starts_with_true_lt input a [b] pos ha h
  obtain ⟨c, hc⟩ := char_at_defined input pos (Nat.le_of_lt h0)
  simp only [starts_with, hc] at h
  by_cases hca : c = a
  · rw [if_neg (not_not.2 hca)] at h
    obtain ⟨d, hd⟩ := char_at_defined input (pos + 1) (by omega)
    simp only [hd] at h
    by_cases hdb : d = b
    · exact char_at_lt_of_ne input (pos + 1) d hd (hdb ▸ hb)
    · rw [if_pos hdb] at h
      cases h
  · rw [if_pos hca] at h
    cases h

/-- The loop of `read_digit`, started inside the buffer, returns and does not move the cursor
backward. -/
theorem read_digit_loop_ok (input : List Char) (is_hex : Bool) (fuel pos : Nat)
    (digit : List Char) (fl : Bool) (hpos : pos ≤ input.length)
    (hfuel : input.length + 1 ≤ fuel + pos) :
    ∃ r, read_digit_loop input is_hex fuel pos digit fl = .ok r ∧ pos ≤ r.1 := by
  induction fuel generalizing pos digit fl with
  | zero => omega
  | succ n ih =>
    obtain ⟨c, hc⟩ := char_at_defined input pos hpos
    rw [read_digit_loop]
    simp only [hc]
    rcases char_at_ok_cases input pos c hc with hlt | hnul
    · have hrec : ∀ d f, ∃ r, read_digit_loop input is_hex n (pos + 1) d f = .ok r ∧
          pos ≤ r.1 := by
        intro d f
        obtain ⟨r, h1, h2⟩ := ih (pos + 1) d f (by omega) (by omega)
        exact ⟨r, h1, by omega⟩
      split_ifs <;> first | exact hrec _ _ | exact ⟨_, rfl, le_refl _⟩
    · subst hnul
      have e1 : ¬ NUL = '.' := by decide
      have e2 : ¬ (NUL = '-' ∨ isdigit NUL = true) := by decide
      have e3 : ¬ (NUL = 'e' ∨ NUL = 'E') := by decide
      have e4 : isxdigit NUL = false := by decide
      simp only [e1, e2, e3, e4, if_false, Bool.false_eq_true, and_false]
      exact ⟨_, rfl, le_refl _⟩

/-- A first character `.`, `-` or digit is consumed by the loop of `read_digit`. -/
theorem read_digit_loop_first (input : List Char) (is_hex : Bool) (n pos : Nat)
    (digit : List Char) (fl : Bool) (c : Char) (hc : char_at input pos = .ok c)
    (hlt : pos < input.length) (hfirst : c = '.' ∨ c = '-' ∨ isdigit c = true)
    (hfuel : input.length + 1 ≤ n + 1 + pos) :
    ∃ r, read_digit_loop input is_hex (n + 1) pos digit fl = .ok r ∧ pos + 1 ≤ r.1 := by
  rw [read_digit_loop]
  simp only [hc]
  by_cases h1 : c = '.'
  · rw [if_pos h1]
    exact read_digit_loop_ok input is_hex n (pos + 1) _ _ (by omega) (by omega)
  · have h2 : c = '-' ∨ isdigit c = true := by tauto
    rw [if_neg h1, if_pos h2]
    exact read_digit_loop_ok input is_hex n (pos + 1) _ _ (by omega) (by omega)

/-- The reader `read_digit`, started at a `.`, a `-` or a digit inside the text, returns and
moves the cursor forward. -/
theorem read_digit_advances (input : List Char) (pos : Nat) (c : Char)
    (hc : char_at input pos = .ok c) (hlt : pos < input.length)
    (hfirst : c = '.' ∨ c = '-' ∨ isdigit c = true) :
    ∃ tok p, read_digit input pos = .ok (tok, p) ∧ pos < p := by
  obtain ⟨lower, hlower⟩ := starts_with_defined input ['0', 'x'] pos (by decide)
    (Nat.le_of_lt hlt)
  obtain ⟨upper, hupper⟩ := starts_with_defined input ['0', 'X'] pos (by decide)
    (Nat.le_of_lt hlt)
  unfold read_digit
  simp only [String.toList, hlower, hupper, bind_ok]
  by_cases hhex : lower = true ∨ upper = true
  · have h2 : pos + 1 < input.length := by
      rcases hhex with h | h
      · subst h
        exact starts_with_two_true_lt input '0' 'x' pos (by decide) (by decide) hlower
      · subst h
        exact starts_with_two_true_lt input '0' 'X' pos (by decide) (by decide) hupper
    have hx : (if lower = true then Result.ok true else Result.ok upper) = .ok true := by
      rcases hhex with h | h
      · rw [if_pos h]
      · subst h
        split <;> rfl
    obtain ⟨c1, hc1⟩ := char_at_defined input (pos + 1) (by omega)
    obtain ⟨r, hr, hge⟩ := read_digit_loop_ok input true (input.length + 1) (pos + 2)
      [c, c1] false (by omega) (by omega)
    simp only [hx, bind_ok, if_true, read_hex_head, hc, hc1, pure_eq_ok, hr]
    exact ⟨_, _, rfl, by omega⟩
  · have hl : lower = false := by
      cases lower
      · rfl
      · exact absurd (Or.inl rfl) hhex
    have hu : upper = false := by
      cases upper
      · rfl
      · exact absurd (Or.inr rfl) hhex
    subst hl hu
    obtain ⟨r, hr, hge⟩ := read_digit_loop_first input false input.length pos [] false c hc
      hlt hfirst (by omega)
    simp only [Bool.false_eq_true, if_false, bind_ok, hr, pure_eq_ok]
    exact ⟨_, _, rfl, by omega⟩

/-- The loop of `read_short_string` returns and does not move the cursor backward. -/
theorem read_short_string_loop_ok (input : List Char) (start : Char) (fuel pos : Nat)
    (string : List Char) (cl : Bool) (h1 : 1 ≤ fuel) (h2 : input.length + 1 ≤ fuel + pos) :
    ∃ r, read_short_string_loop input start fuel pos string cl = .ok r ∧ pos ≤ r.1 := by
  induction fuel generalizing pos string cl with
  | zero => omega
  | succ n ih =>
    unfold read_short_string_loop
    split
    · rename_i hcond
      have hlt : pos < input.length := by
        simp only [has_at_least, Bool.and_eq_true, decide_eq_true_eq] at hcond
        omega
      have hrec : ∀ q, pos + 1 ≤ q → ∀ t b,
          ∃ r, read_short_string_loop input start n q t b = .ok r ∧ pos ≤ r.1 := by
        intro q hq t b
        obtain ⟨r, e1, e2⟩ := ih q t b (by omega) (by omega)
        exact ⟨r, e1, by omega⟩
      rw [char_at_lt input pos hlt]
      simp only []
      split
      · exact hrec _ (by split <;> omega) _ _
      · exact hrec _ (by split <;> omega) _ _
    · exact ⟨_, rfl, le_refl _⟩

/-- The reader `read_short_string`, started inside the text, returns and moves the cursor
forward. -/
theorem read_short_string_advances (input : List Char) (pos : Nat)
    (hlt : pos < input.length) :
    ∃ tok p, read_short_string input pos = .ok (tok, p) ∧ pos < p := by
  obtain ⟨r, hr, hge⟩ := read_short_string_loop_ok input (input.get ⟨pos, hlt⟩)
    (input.length + 1) (pos + 1) [] false (by omega) (by omega)
  unfold read_short_string
  rw [char_at_lt input pos hlt]
  simp only [bind_ok, hr, pure_eq_ok]
  exact ⟨_, _, rfl, by omega⟩

/-- The loop of `read_long_string` returns and does not move the cursor backward. -/
theorem read_long_string_loop_ok (input : List Char) (fuel pos : Nat)
    (string : List Char) (cl : Bool) (h1 : 1 ≤ fuel) (h2 : input.length + 1 ≤ fuel + pos) :
    ∃ r, read_long_string_loop input fuel pos string cl = .ok r ∧ pos ≤ r.1 := by
  induction fuel generalizing pos string cl with
  | zero => omega
  | succ n ih =>
    unfold read_long_string_loop
    split
    · rename_i hcond
      have hlt : pos < input.length := by
        simp only [has_at_least, Bool.and_eq_true, decide_eq_true_eq] at hcond
        omega
      obtain ⟨c2, hc2⟩ := char_at_defined input (pos + 1) (by omega)
      have hrec : ∀ q, pos + 1 ≤ q → ∀ t b,
          ∃ r, read_long_string_loop input n q t b = .ok r ∧ pos ≤ r.1 := by
        intro q hq t b
        obtain ⟨r, e1, e2⟩ := ih q t b (by omega) (by omega)
        exact ⟨r, e1, by omega⟩
      rw [char_at_lt input pos hlt, hc2]
      simp only []
      split
      · exact hrec _ (by omega) _ _
      · exact hrec _ (by omega) _ _
    · exact ⟨_, rfl, le_refl _⟩

/-- The reader `read_long_string` returns and moves the cursor by two at least. -/
theorem read_long_string_advances (input : List Char) (pos : Nat) :
    ∃ tok p, read_long_string input pos = .ok (tok, p) ∧ pos < p := by
  obtain ⟨r, hr, hge⟩ := read_long_string_loop_ok input (input.length + 1) (pos + 2) [] false
    (by omega) (by omega)
  unfold read_long_string
  simp only [hr, bind_ok, pure_eq_ok]
  exact ⟨_, _, rfl, by omega⟩

/-- The loop of `read_short_comment`, started inside the buffer, returns and does not move
the cursor backward. -/
theorem read_short_comment_loop_ok (input : List Char) (fuel pos : Nat)
    (comment : List Char) (hpos : pos ≤ input.length)
    (hfuel : input.length + 1 ≤ fuel + pos) :
    ∃ r, read_short_comment_loop input fuel pos comment = .ok r ∧ pos ≤ r.1 := by
  induction fuel generalizing pos comment with
  | zero => omega
  | succ n ih =>
    obtain ⟨c, hc⟩ := char_at_defined input pos hpos
    unfold read_short_comment_loop
    simp only [hc]
    split
    · rename_i hcond
      have hlt : pos < input.length := by
        simp only [has_at_least, decide_eq_true_eq] at hcond
        omega
      obtain ⟨r, e1, e2⟩ := ih (pos + 1) (comment ++ [c]) (by omega) (by omega)
      exact ⟨r, e1, by omega⟩
    · exact ⟨_, rfl, le_refl _⟩

/-- The reader `read_short_comment`, started inside the text at a character that is not a
line break, returns and moves the cursor forward. -/
theorem read_short_comment_advances (input : List Char) (pos : Nat) (c : Char)
    (hc : char_at input pos = .ok c) (hne : c ≠ '\n') (hlt : pos < input.length) :
    ∃ tok p, read_short_comment input pos = .ok (tok, p) ∧ pos < p := by
  obtain ⟨r, hr, hge⟩ := read_short_comment_loop_ok input input.length (pos + 1)
    ([] ++ [c]) (by omega) (by omega)
  have hcond : c ≠ '\n' ∧ has_at_least input pos 0 = true := by
    refine ⟨hne, ?_⟩
    simp only [has_at_least, decide_eq_true_eq]
    omega
  unfold read_short_comment
  rw [read_short_comment_loop]
  simp only [hc]
  rw [if_pos hcond]
  simp only [hr, bind_ok, pure_eq_ok]
  exact ⟨_, _, rfl, by omega⟩

/-- The loop of `read_long_comment`, started inside the buffer, returns and does not move the
cursor backward. -/
theorem read_long_comment_loop_ok (input : List Char) (fuel pos : Nat)
    (comment : List Char) (hpos : pos ≤ input.length)
    (hfuel : input.length + 1 ≤ fuel + pos) :
    ∃ r, read_long_comment_loop input fuel pos comment = .ok r ∧ pos ≤ r.1 := by
  induction fuel generalizing pos comment with
  | zero => omega
  | succ n ih =>
    obtain ⟨b, hb⟩ := starts_with_defined input "]]".toList pos (by decide) hpos
    unfold read_long_comment_loop
    simp only [hb]
    split
    · rename_i hcond
      have hlt : pos < input.length := by
        simp only [has_at_least, Bool.and_eq_true, decide_eq_true_eq] at hcond
        omega
      rw [char_at_lt input pos hlt]
      simp only []
      obtain ⟨r, e1, e2⟩ := ih (pos + 1) (comment ++ [input.get ⟨pos, hlt⟩]) (by omega)
        (by omega)
      exact ⟨r, e1, by omega⟩
    · exact ⟨_, rfl, le_refl _⟩

/-- The reader `read_long_comment`, started inside the text at a character that is not `]`,
returns and moves the cursor forward. -/
theorem read_long_comment_advances (input : List Char) (pos : Nat) (c : Char)
    (hc : char_at input pos = .ok c) (hne : c ≠ ']') (hlt : pos < input.length) :
    ∃ tok p, read_long_comment input pos = .ok (tok, p) ∧ pos < p := by
  obtain ⟨r, hr, hge⟩ := read_long_comment_loop_ok input input.length (pos + 1)
    ([] ++ [c]) (by omega) (by omega)
  have hsw : starts_with input "]]".toList pos = .ok false :=
    starts_with_first_false input pos ']' ']' c hc hne
  have hcond : (!false && has_at_least input pos 0) = true := by
    simp only [has_at_least, Bool.not_false, Bool.true_and, decide_eq_true_eq]
    omega
  unfold read_long_comment
  rw [read_long_comment_loop]
  simp only [hsw]
  rw [if_pos hcond]
  simp only [hc, hr, bind_ok, pure_eq_ok]
  exact ⟨_, _, rfl, by omega⟩

/-- The loop that reads a word, started inside the buffer, returns and does not move the
cursor backward. -/
theorem read_word_loop_ok (input : List Char) (fuel pos : Nat) (word : List Char)
    (hpos : pos ≤ input.length) (hfuel : input.length + 1 ≤ fuel + pos) :
    ∃ r, read_word_loop input fuel pos word = .ok r ∧ pos ≤ r.1 := by
  induction fuel generalizing pos word with
  | zero => omega
  | succ n ih =>
    obtain ⟨c, hc⟩ := char_at_defined input pos hpos
    unfold read_word_loop
    simp only [is_valid_ident, hc]
    cases hb : (isalpha c || isdigit c || decide (c = '_')) with
    | false => exact ⟨_, rfl, le_refl _⟩
    | true =>
      simp only []
      have hlt : pos < input.length :=
        char_at_lt_of_ne input pos c hc (by rintro rfl; exact absurd hb (by decide))
      obtain ⟨r, e1, e2⟩ := ih (pos + 1) (word ++ [c]) (by omega) (by omega)
      exact ⟨r, e1, by omega⟩

/-- The part of `read_other_tokens` behind its `switch`, entered with the cursor inside the
buffer, returns and does not move the cursor backward. -/
theorem read_other_tokens_tail_ok (input : List Char) (type : token_type_t) (q : Nat)
    (hq : q ≤ input.length) :
    ∃ tok p, read_other_tokens_tail input type q = .ok (tok, p) ∧ q ≤ p := by
  obtain ⟨c, hc⟩ := char_at_defined input q hq
  obtain ⟨r, hr, hge⟩ := read_word_loop_ok input (input.length + 1) q [] hq (by omega)
  unfold read_other_tokens_tail
  simp only [is_valid_ident_start, hc, bind_ok]
  split
  · simp only [hr, bind_ok, pure_eq_ok]
    exact ⟨_, _, rfl, hge⟩
  · exact ⟨_, _, rfl, le_refl _⟩

/-- The part of `read_other_tokens` behind its `switch`, entered at the first character of an
identifier, returns and moves the cursor forward. -/
theorem read_other_tokens_tail_first (input : List Char) (type : token_type_t) (q : Nat)
    (c : Char) (hc : char_at input q = .ok c) (hs : ident_start c = true) :
    ∃ tok p, read_other_tokens_tail input type q = .ok (tok, p) ∧ q < p := by
  have hlt : q < input.length :=
    char_at_lt_of_ne input q c hc (by rintro rfl; exact absurd hs (by decide))
  have hs1 : (isalpha c || decide (c = '_')) = true := hs
  have hs2 : (isalpha c || isdigit c || decide (c = '_')) = true := by
    simp only [Bool.or_eq_true, decide_eq_true_eq] at hs1 ⊢
    tauto
  obtain ⟨r, hr, hge⟩ := read_word_loop_ok input input.length (q + 1) ([] ++ [c]) (by omega)
    (by omega)
  unfold read_other_tokens_tail
  simp only [is_valid_ident_start, hc, bind_ok, hs1, if_true]
  rw [read_word_loop]
  simp only [is_valid_ident, hc, hs2, hr, bind_ok, pure_eq_ok]
  exact ⟨_, _, rfl, by omega⟩

/-- Entered with the cursor behind the terminator, the part of `read_other_tokens` behind its
`switch` reads outside the buffer. -/
theorem read_other_tokens_tail_beyond (input : List Char) (type : token_type_t) (q : Nat)
    (hq : input.length < q) : read_other_tokens_tail input type q = .undefined q := by
  unfold read_other_tokens_tail
  simp only [is_valid_ident_start, char_at_beyond input q hq]
  rfl

/-- On a two-character operator text `get_matching_token_type` returns with the cursor moved
by two, whether the text matches or not. -/
theorem get_matching_token_type_ok (input : List Char) (p : Nat) (a b : Char)
    (t f : token_type_t) (ha : a ≠ NUL) (hb : b ≠ NUL) (hlt : p < input.length) :
    ∃ ty, get_matching_token_type input p [a, b] t f = .ok (ty, p + 2) := by
  obtain ⟨found, hf⟩ := starts_with_defined input [a, b] p
    (by
      simp only [List.mem_cons, List.mem_singleton, List.not_mem_nil, or_false, not_or]
      exact ⟨fun e => ha e.symm, fun e => hb e.symm⟩)
    (Nat.le_of_lt hlt)
  unfold get_matching_token_type
  simp only [List.length_cons, List.length_nil, Nat.add_sub_cancel, hf, bind_ok, pure_eq_ok]
  exact ⟨_, rfl⟩

/-- A two-character operator that is not the last character of the input: the step returns
with the cursor moved by two at least. -/
theorem get_matching_then_tail_advances (input : List Char) (p : Nat) (a b : Char)
    (t f : token_type_t) (ha : a ≠ NUL) (hb : b ≠ NUL) (hlt : p + 2 ≤ input.length) :
    ∃ tok p1, (get_matching_token_type input p [a, b] t f >>= fun r =>
      read_other_tokens_tail input r.1 r.2) = .ok (tok, p1) ∧ p + 2 ≤ p1 := by
  obtain ⟨ty, hty⟩ := get_matching_token_type_ok input p a b t f ha hb (by omega)
  obtain ⟨tok, p1, h1, h2⟩ := read_other_tokens_tail_ok input ty (p + 2) hlt
  rw [hty, bind_ok]
  exact ⟨tok, p1, h1, h2⟩

/-- A two-character operator that is the last character of the input: the cursor is moved to
`p + 2`, behind the terminator, and the identifier test reads `input[p + 2]`, outside the
buffer. -/
theorem get_matching_then_tail_corner (input : List Char) (p : Nat) (a b : Char)
    (t f : token_type_t) (ha : a ≠ NUL) (hb : b ≠ NUL) (hend : p + 1 = input.length) :
    (get_matching_token_type input p [a, b] t f >>= fun r =>
      read_other_tokens_tail input r.1 r.2) = .undefined (p + 2) := by
  obtain ⟨ty, hty⟩ := get_matching_token_type_ok input p a b t f ha hb (by omega)
  rw [hty, bind_ok]
  exact read_other_tokens_tail_beyond input ty (p + 2) (by omega)

/-- The function `read_other_tokens` at one of the eight characters of its `switch` or at the
first character of an identifier, except at a two-character operator that is the last
character of the input: it returns and moves the cursor forward. -/
theorem read_other_tokens_advances (input : List Char) (p : Nat) (c : Char)
    (hlt : p < input.length) (hc : char_at input p = .ok c)
    (hcorner : ¬ (two_char_operator c = true ∧ p + 1 = input.length))
    (hclass : c ∈ ['~', '>', '<', '=', ':', '-', '.', '['] ∨ ident_start c = true) :
    ∃ tok p1, read_other_tokens input p = .ok (tok, p1) ∧ p < p1 := by
  have hop : two_char_operator c = true → p + 2 ≤ input.length := by
    intro h
    by_contra hn
    exact hcorner ⟨h, by omega⟩
  have hmatch : ∀ a b t f, a ≠ NUL → b ≠ NUL → two_char_operator c = true →
      ∃ tok p1, (get_matching_token_type input p [a, b] t f >>= fun r =>
        read_other_tokens_tail input r.1 r.2) = .ok (tok, p1) ∧ p < p1 := by
    intro a b t f ha hb h
    obtain ⟨tok, p1, e1, e2⟩ := get_matching_then_tail_advances input p a b t f ha hb (hop h)
    exact ⟨tok, p1, e1, by omega⟩
  have htail : ∀ t, ∃ tok p1, read_other_tokens_tail input t (p + 1) = .ok (tok, p1) ∧
      p < p1 := by
    intro t
    obtain ⟨tok, p1, e1, e2⟩ := read_other_tokens_tail_ok input t (p + 1) (by omega)
    exact ⟨tok, p1, e1, by omega⟩
  obtain ⟨n, hn⟩ := char_at_defined input (p + 1) (by omega)
  unfold read_other_tokens
  simp only [hc, bind_ok]
  by_cases h1 : c = '~'
  · rw [if_pos h1]
    exact hmatch '~' '=' _ _ (by decide) (by decide) (by subst h1; decide)
  rw [if_neg h1]
  by_cases h2 : c = '>'
  · rw [if_pos h2]
    exact hmatch '>' '=' _ _ (by decide) (by decide) (by subst h2; decide)
  rw [if_neg h2]
  by_cases h3 : c = '<'
  · rw [if_pos h3]
    exact hmatch '<' '=' _ _ (by decide) (by decide) (by subst h3; decide)
  rw [if_neg h3]
  by_cases h4 : c = '='
  · rw [if_pos h4]
    exact hmatch '=' '=' _ _ (by decide) (by decide) (by subst h4; decide)
  rw [if_neg h4]
  by_cases h5 : c = ':'
  · rw [if_pos h5]
    exact hmatch ':' ':' _ _ (by decide) (by decide) (by subst h5; decide)
  rw [if_neg h5]
  by_cases h6 : c = '-'
  · rw [if_pos h6]
    subst h6
    obtain ⟨b1, hb1⟩ := starts_with_defined input "--[[".toList p (by decide)
      (Nat.le_of_lt hlt)
    obtain ⟨b2, hb2⟩ := starts_with_defined input "--".toList p (by decide)
      (Nat.le_of_lt hlt)
    simp only [hb1, hb2, hn, bind_ok]
    cases b1 with
    | true =>
      rw [if_pos rfl]
      exact read_long_comment_advances input p '-' hc (by decide) hlt
    | false =>
      rw [if_neg (by decide)]
      cases b2 with
      | true =>
        rw [if_pos rfl]
        exact read_short_comment_advances input p '-' hc (by decide) hlt
      | false =>
        rw [if_neg (by decide)]
        by_cases hd : isdigit n = true
        · rw [if_pos hd]
          exact read_digit_advances input p '-' hc hlt (Or.inr (Or.inl rfl))
        · rw [if_neg hd]
          exact htail SUB
  rw [if_neg h6]
  by_cases h7 : c = '.'
  · rw [if_pos h7]
    subst h7
    simp only [hn, bind_ok]
    by_cases hd : isdigit n = true
    · rw [if_pos hd]
      exact read_digit_advances input p '.' hc hlt (Or.inl rfl)
    · rw [if_neg hd]
      exact htail ATTR
  rw [if_neg h7]
  by_cases h8 : c = '['
  · rw [if_pos h8]
    obtain ⟨b1, hb1⟩ := starts_with_defined input "[[".toList p (by decide) (Nat.le_of_lt hlt)
    simp only [hb1, bind_ok]
    cases b1 with
    | true =>
      rw [if_pos rfl]
      exact read_long_string_advances input p
    | false =>
      rw [if_neg (by decide)]
      exact htail LEFT_BRACKET
  rw [if_neg h8]
  have hs : ident_start c = true := by
    rcases hclass with h | h
    · simp only [List.mem_cons, List.mem_singleton, List.not_mem_nil, or_false] at h
      tauto
    · exact h
  exact read_other_tokens_tail_first input UNIDENTIFIED p c hc hs

/-- The function `read_other_tokens` at a two-character operator that is the last character of
the input reads outside the buffer, at the cursor `p + 2`. -/
theorem read_other_tokens_corner (input : List Char) (p : Nat) (c : Char)
    (hc : char_at input p = .ok c) (hop : two_char_operator c = true)
    (hend : p + 1 = input.length) : read_other_tokens input p = .undefined (p + 2) := by
  simp only [two_char_operator, List.mem_cons, List.mem_singleton, List.not_mem_nil, or_false,
    decide_eq_true_eq] at hop
  unfold read_other_tokens
  simp only [hc, bind_ok]
  rcases hop with h | h | h | h | h <;> subst h
  · rw [if_pos rfl]
    exact get_matching_then_tail_corner input p '~' '=' _ _ (by decide) (by decide) hend
  · rw [if_neg (by decide), if_pos rfl]
    exact get_matching_then_tail_corner input p '>' '=' _ _ (by decide) (by decide) hend
  · rw [if_neg (by decide), if_neg (by decide), if_pos rfl]
    exact get_matching_then_tail_corner input p '<' '=' _ _ (by decide) (by decide) hend
  · rw [if_neg (by decide), if_neg (by decide), if_neg (by decide), if_pos rfl]
    exact get_matching_then_tail_corner input p '=' '=' _ _ (by decide) (by decide) hend
  · rw [if_neg (by decide), if_neg (by decide), if_neg (by decide), if_neg (by decide),
      if_pos rfl]
    exact get_matching_then_tail_corner input p ':' ':' _ _ (by decide) (by decide) hend

/-- The thirteen one-character tokens have a `case` in the `switch` of `next_token`. -/
theorem next_token_switch_of_mem (c : Char)
    (h : c ∈ ['(', ')', ']', '{', '}', ';', ',', '+', '*', '/', '%', '^', '#']) :
    next_token_switch c ≠ UNIDENTIFIED := by
  simp only [List.mem_cons, List.mem_singleton, List.not_mem_nil, or_false] at h
  rcases h with h | h | h | h | h | h | h | h | h | h | h | h | h <;> subst h <;> decide

/-- At a character with a lexical rule, except at a two-character operator that is the last
character of the input, the dispatch step returns and moves the cursor forward. -/
theorem next_token_advances (input : List Char) (p : Nat) (c : Char)
    (hlt : p < input.length) (hc : char_at input p = .ok c) (hr : has_rule c = true)
    (hcorner : ¬ (two_char_operator c = true ∧ p + 1 = input.length)) :
    ∃ tok p1, next_token input p = .ok (tok, p1) ∧ p < p1 := by
  unfold next_token
  simp only [hc, bind_ok]
  by_cases hq : c = '\'' ∨ c = '"'
  · rw [if_pos hq]
    exact read_short_string_advances input p hlt
  rw [if_neg hq]
  by_cases hd : isdigit c = true
  · simp only [hd, if_true]
    exact read_digit_advances input p c hc hlt (Or.inr (Or.inr hd))
  simp only [hd, Bool.false_eq_true, if_false]
  by_cases hty : (if isspace c = true then WHITESPACE else next_token_switch c) = UNIDENTIFIED
  · rw [if_pos hty]
    have hsp : isspace c = false := by
      cases h : isspace c
      · rfl
      · rw [h, if_pos rfl] at hty
        cases hty
    have hsw : next_token_switch c = UNIDENTIFIED := by
      rw [hsp, if_neg (by decide)] at hty
      exact hty
    refine read_other_tokens_advances input p c hlt hc hcorner ?_
    simp only [has_rule, Bool.or_eq_true, decide_eq_true_eq] at hr
    rcases hr with (((((h | h) | h) | h) | h) | h) | h
    · exact absurd (by simpa using h) hq
    · exact absurd hsw (next_token_switch_of_mem c h)
    · exact Or.inl h
    · exact absurd h hd
    · rw [hsp] at h
      cases h
    · exact Or.inr (by simp [ident_start, h])
    · exact Or.inr (by simp [ident_start, h])
  · rw [if_neg hty]
    exact ⟨_, _, rfl, by omega⟩

/-- At a two-character operator that is the last character of the input the dispatch step
reads outside the buffer, at the cursor `p + 2`. -/
theorem next_token_corner (input : List Char) (p : Nat) (c : Char)
    (hc : char_at input p = .ok c) (hop : two_char_operator c = true)
    (hend : p + 1 = input.length) : next_token input p = .undefined (p + 2) := by
  have hfacts : ¬ (c = '\'' ∨ c = '"') ∧ isdigit c = false ∧ isspace c = false ∧
      next_token_switch c = UNIDENTIFIED := by
    have h := hop
    simp only [two_char_operator, List.mem_cons, List.mem_singleton, List.not_mem_nil,
      or_false, decide_eq_true_eq] at h
    rcases h with h | h | h | h | h <;> subst h <;> decide
  obtain ⟨h1, h2, h3, h4⟩ := hfacts
  unfold next_token
  simp only [hc, bind_ok, h2, h3, h4, Bool.false_eq_true, if_false, if_true]
  rw [if_neg h1]
  exact read_other_tokens_corner input p c hc hop hend

/-- C20, the stall condition.  Let `c` be the character at a cursor `p` before the end of the
input.  The dispatch step ends with the cursor strictly behind `p` if and only if `c` has a
lexical rule; without a rule the step returns `unidentified` and leaves the cursor at `p`.
With a rule the step returns with a greater cursor, except when `c` is one of `~ > < = :` and
the last character of the input: there the step ends at the cursor `p + 2`, where its
identifier test reads outside the buffer. -/
theorem C20_stall_condition (input : List Char) (p : Nat) (c : Char)
    (hlt : p < input.length) (hc : char_at input p = .ok c) :
    ((∃ q, ends_at (next_token input p) q ∧ p < q) ↔ has_rule c = true) ∧
    (has_rule c = false → next_token input p = .ok (plain UNIDENTIFIED, p)) ∧
    (has_rule c = true → ¬ (two_char_operator c = true ∧ p + 1 = input.length) →
      ∃ tok q, next_token input p = .ok (tok, q) ∧ p < q) ∧
    (two_char_operator c = true ∧ p + 1 = input.length →
      has_rule c = true ∧ next_token input p = .undefined (p + 2)) := by
  have hcorner : two_char_operator c = true ∧ p + 1 = input.length →
      has_rule c = true ∧ next_token input p = .undefined (p + 2) := by
    rintro ⟨hop, hend⟩
    refine ⟨?_, next_token_corner input p c hc hop hend⟩
    simp only [two_char_operator, List.mem_cons, List.mem_singleton, List.not_mem_nil,
      or_false, decide_eq_true_eq] at hop
    rcases hop with h | h | h | h | h <;> subst h <;> decide
  refine ⟨⟨?_, ?_⟩, next_token_no_rule input p c hc, next_token_advances input p c hlt hc,
    hcorner⟩
  · rintro ⟨q, hq, hpq⟩
    cases hr : has_rule c with
    | true => rfl
    | false =>
      exfalso
      rw [next_token_no_rule input p c hc hr] at hq
      rcases hq with ⟨tok, h⟩ | h
      · simp only [Result.ok.injEq, Prod.mk.injEq] at h
        omega
      · cases h
  · intro hr
    by_cases hco : two_char_operator c = true ∧ p + 1 = input.length
    · exact ⟨p + 2, Or.inr (hcorner hco).2, by omega⟩
    · obtain ⟨tok, q, h, hpq⟩ := next_token_advances input p c hlt hc hr hco
      exact ⟨q, Or.inl ⟨tok, h⟩, hpq⟩

/-- C20 at the inputs `@` (no rule: the cursor stays at 0), `x=1` at the `=` (a rule: the step
returns with the cursor at 3) and `>` (a rule, the last character: the step ends at the
cursor 2). -/
theorem C20_stall_condition_witness :
    (0 < ['@'].length ∧ char_at ['@'] 0 = .ok '@' ∧ has_rule '@' = false ∧
      next_token ['@'] 0 = .ok (plain UNIDENTIFIED, 0) ∧
      ¬ ∃ q, ends_at (next_token ['@'] 0) q ∧ 0 < q) ∧
    (1 < ['x', '=', '1'].length ∧ char_at ['x', '=', '1'] 1 = .ok '=' ∧ has_rule '=' = true ∧
      ¬ (two_char_operator '=' = true ∧ 1 + 1 = ['x', '=', '1'].length) ∧
      ∃ tok q, next_token ['x', '=', '1'] 1 = .ok (tok, q) ∧ 1 < q) ∧
    (0 < ['>'].length ∧ char_at ['>'] 0 = .ok '>' ∧ has_rule '>' = true ∧
      (two_char_operator '>' = true ∧ 0 + 1 = ['>'].length) ∧
      next_token ['>'] 0 = .undefined (0 + 2) ∧
      ∃ q, ends_at (next_token ['>'] 0) q ∧ 0 < q) :=
  ⟨⟨by decide, by decide, by decide,
      (C20_stall_condition ['@'] 0 '@' (by decide) (by decide)).2.1 (by decide),
      fun h => absurd ((C20_stall_condition ['@'] 0 '@' (by decide) (by decide)).1.1 h)
        (by decide)⟩,
    ⟨by decide, by decide, by decide, by decide,
      (C20_stall_condition ['x', '=', '1'] 1 '=' (by decide) (by decide)).2.2.1 (by decide)
        (by decide)⟩,
    ⟨by decide, by decide, by decide, by decide,
      ((C20_stall_condition ['>'] 0 '>' (by decide) (by decide)).2.2.2 (by decide)).2,
      (C20_stall_condition ['>'] 0 '>' (by decide) (by decide)).1.2 (by decide)⟩⟩

/-- At one of `~ > < = :` a dispatch step that returns has moved the cursor by two at
least, whatever the second character is. -/
theorem next_token_operator_ge (input : List Char) (p : Nat) (c : Char)
    (hc : char_at input p = .ok c) (hop : two_char_operator c = true) (tok : token_t)
    (p1 : Nat) (h : next_token input p = .ok (tok, p1)) : p + 2 ≤ p1 := by
  have hlt : p < input.length :=
    char_at_lt_of_ne input p c hc (by rintro rfl; exact absurd hop (by decide))
  by_cases hend : p + 1 = input.length
  · rw [next_token_corner input p c hc hop hend] at h
    cases h
  · have hfacts : ¬ (c = '\'' ∨ c = '"') ∧ isdigit c = false ∧ isspace c = false ∧
        next_token_switch c = UNIDENTIFIED := by
      have h := hop
      simp only [two_char_operator, List.mem_cons, List.mem_singleton, List.not_mem_nil,
        or_false, decide_eq_true_eq] at h
      rcases h with h | h | h | h | h <;> subst h <;> decide
    obtain ⟨h1, h2, h3, h4⟩ := hfacts
    have hge : ∀ a b t f, a ≠ NUL → b ≠ NUL →
        (get_matching_token_type input p [a, b] t f >>= fun r =>
          read_other_tokens_tail input r.1 r.2) = .ok (tok, p1) → p + 2 ≤ p1 := by
      intro a b t f ha hb e
      obtain ⟨tok2, p2, e1, e2⟩ := get_matching_then_tail_advances input p a b t f ha hb
        (by omega)
      rw [e1] at e
      cases e
      exact e2
    unfold next_token at h
    simp only [hc, bind_ok, h2, h3, h4, Bool.false_eq_true, if_false, if_true] at h
    rw [if_neg h1] at h
    unfold read_other_tokens at h
    simp only [hc, bind_ok] at h
    simp only [two_char_operator, List.mem_cons, List.mem_singleton, List.not_mem_nil,
      or_false, decide_eq_true_eq] at hop
    rcases hop with e | e | e | e | e <;> subst e
    · rw [if_pos rfl] at h
      exact hge '~' '=' _ _ (by decide) (by decide) h
    · rw [if_neg (by decide), if_pos rfl] at h
      exact hge '>' '=' _ _ (by decide) (by decide) h
    · rw [if_neg (by decide), if_neg (by decide), if_pos rfl] at h
      exact hge '<' '=' _ _ (by decide) (by decide) h
    · rw [if_neg (by decide), if_neg (by decide), if_neg (by decide), if_pos rfl] at h
      exact hge '=' '=' _ _ (by decide) (by decide) h
    · rw [if_neg (by decide), if_neg (by decide), if_neg (by decide), if_neg (by decide),
        if_pos rfl] at h
      exact hge ':' ':' _ _ (by decide) (by decide) h

/-- C12 fails on the code: on `<5` the step at the `<`, which is not followed by `=`, emits
`less` but moves the cursor by 2, so the `5` is never scanned and `tokenize` returns
`[less, end_of_file]`; on `>=x` the step at `>=` moves the cursor by 3 and returns
`ident("x")` in place of `greater_eq`; and on no input does a step at one of `~ > < = :`
move the cursor by exactly 1. -/
theorem C12_two_character_operators_overrun :
    next_token "<5".toList 0 = .ok (plain LESS, 2) ∧
    tokenize 2 "<5".toList = .ok [plain LESS, end_token] ∧
    next_token ">=x".toList 0 = .ok (with_text IDENT ['x'], 3) ∧
    ∀ (input : List Char) (p : Nat) (c : Char) (tok : token_t) (p1 : Nat),
      char_at input p = .ok c → two_char_operator c = true →
        next_token input p = .ok (tok, p1) → p + 2 ≤ p1 :=
  ⟨by decide, by decide, by decide,
    fun input p c tok p1 hc hop h => next_token_operator_ge input p c hc hop tok p1 h⟩

/-- C12 at the input `<5`. -/
theorem C12_two_character_operators_overrun_witness :
    char_at "<5".toList 0 = .ok '<' ∧ two_char_operator '<' = true ∧
    next_token "<5".toList 0 = .ok (plain LESS, 2) ∧ 0 + 2 ≤ 2 :=
  ⟨by decide, by decide, by decide,
    C12_two_character_operators_overrun.2.2.2 "<5".toList 0 '<' (plain LESS) 2 (by decide)
      (by decide) (by decide)⟩

end LuaLexer
